import Mathlib

/-!
Verification of the deterministic lesson/dialogue engine of the Paixi
child-companion server.

The Python sources are shallowly embedded: strings are `List Char` / `String`,
Python dicts of lesson state are association lists over a small inductive
value type `PyVal`, fallible Python operations (`int(...)`, `dict(...)`,
list indexing) return `Except String`, and the stateful lesson agents are
embedded as explicit state-passing functions.

Python `str.strip()` / the regex class `\s` are modelled by the ASCII
whitespace characters, which is exhaustive for every string the engine
manipulates (Arabic text, ASCII punctuation and spaces).
-/

namespace Paixi

/-! ## Character classes -/

/-- ASCII whitespace, modelling the Python regex class backslash-s and
`str.strip()` on the engine's inputs. -/
def pySpace (c : Char) : Bool :=
  c == ' ' || c == '\t' || c == '\n' || c == '\r' || c == '\x0b' || c == '\x0c'

/-- The Arabic Unicode block `؀-ۿ` used by `_AR_ONLY_RE` and
`_AR_PUNCT`. -/
def arBlock (c : Char) : Bool :=
  decide (0x600 ≤ c.toNat ∧ c.toNat ≤ 0x6FF)

/-- Tashkeel range `ً-ْ` removed by `lesson_base.norm_arabic`. -/
def tashkeel (c : Char) : Bool :=
  decide (0x64B ≤ c.toNat ∧ c.toNat ≤ 0x652)

/-- Diacritics range `[ً-ٰٟۖ-ۭ]` removed by
`arabic_agent._norm_ar`. -/
def arDia (c : Char) : Bool :=
  decide ((0x64B ≤ c.toNat ∧ c.toNat ≤ 0x65F) ∨ c.toNat = 0x670 ∨
    (0x6D6 ≤ c.toNat ∧ c.toNat ≤ 0x6ED))

/-- ASCII decimal digits `0-9`. -/
def asciiDigit (c : Char) : Bool :=
  decide ('0' ≤ c ∧ c ≤ '9')

/-- ASCII letters `A-Za-z`. -/
def asciiLetter (c : Char) : Bool :=
  decide (('A' ≤ c ∧ c ≤ 'Z') ∨ ('a' ≤ c ∧ c ≤ 'z'))

/-- Characters kept by `arabic_agent._AR_PUNCT` (everything outside the class
is punctuation and is replaced by a space). -/
def punctKeep (c : Char) : Bool :=
  arBlock c || asciiDigit c || asciiLetter c || pySpace c

/-- Quote characters trimmed from the ends of the input by `_norm_ar`. -/
def quoteChar (c : Char) : Bool :=
  c == '"' || c == '\''

/-! ## Generic list-of-characters helpers -/

/-- Remove the trailing run of characters satisfying `p` (the right half of
Python `str.strip`). -/
def dropTrail (p : Char → Bool) : List Char → List Char
  | [] => []
  | c :: r =>
    if (dropTrail p r).isEmpty && p c then [] else c :: dropTrail p r

/-- Python `str.strip(chars)`: drop leading and trailing characters
satisfying `p`. -/
def stripBoth (p : Char → Bool) (l : List Char) : List Char :=
  dropTrail p (l.dropWhile p)

/-- Python `re.sub(r"\s+", " ", _)`: collapse every maximal whitespace run
into a single space.  The flag records whether the previous character was
part of a whitespace run. -/
def collapseWS : List Char → Bool → List Char
  | [], _ => []
  | c :: r, prev =>
    if pySpace c then
      if prev then collapseWS r true else ' ' :: collapseWS r true
    else
      c :: collapseWS r false

/-- Python `t.rsplit(" ", 1)[0]`: the part before the last space character,
or the whole list when no space occurs. -/
def beforeLastSpace : List Char → List Char
  | [] => []
  | c :: r =>
    if ' ' ∈ r then c :: beforeLastSpace r
    else if c = ' ' then [] else c :: beforeLastSpace r

/-- Substring containment (Python `needle in hay`) on character lists. -/
def isSubL (needle : List Char) : List Char → Bool
  | [] => needle.isEmpty
  | c :: r => needle.isPrefixOf (c :: r) || isSubL needle r

/-- Python `needle in hay` on strings. -/
def strContains (hay needle : String) : Bool :=
  isSubL needle.data hay.data

/-! ## lesson_base.py -/

/-- `lesson_base.clean_arabic_plain`: keep only Arabic-block characters and
whitespace, collapse whitespace, and truncate to `maxLen` at a word
boundary. -/
def clean_arabic_plainL (maxLen : Nat) (l : List Char) : List Char :=
  let t := stripBoth pySpace l
  let t := t.map (fun c => if arBlock c || pySpace c then c else ' ')
  let t := stripBoth pySpace (collapseWS t false)
  if maxLen < t.length then
    let t2 := t.take maxLen
    let r := stripBoth pySpace (beforeLastSpace t2)
    if r = [] then t2 else r
  else t

/-- One-character folding steps of `lesson_base.norm_arabic` (alef variants,
waw/yeh hamza, teh marbuta, alef maksura). -/
def foldArVariant (c : Char) : Char :=
  if c = 'أ' ∨ c = 'إ' ∨ c = 'آ' then 'ا'
  else if c = 'ؤ' then 'و'
  else if c = 'ئ' then 'ي'
  else if c = 'ة' then 'ه'
  else if c = 'ى' then 'ي'
  else c

/-- `lesson_base.norm_arabic` on character lists. -/
def norm_arabicL (l : List Char) : List Char :=
  let t := clean_arabic_plainL 500 l
  let t := t.filter (fun c => !tashkeel c)
  let t := t.map foldArVariant
  let t := t.filter (fun c => !pySpace c)
  stripBoth pySpace t

/-- `lesson_base.norm_arabic` on strings. -/
def norm_arabic (s : String) : String :=
  String.mk (norm_arabicL s.data)

/-- `lesson_base.clean_arabic_plain` on strings with the default
`max_len = 120`. -/
def clean_arabic_plain (s : String) : String :=
  String.mk (clean_arabic_plainL 120 s.data)

/-! ## A small model of Python values

Lesson state crosses the engine boundary as JSON-ish Python data, so the
caller may hand the turn functions values of any shape.  `PyVal` covers the
shapes the engine's coercions distinguish. -/

inductive PyVal where
  | none
  | vint (n : Int)
  | vstr (s : String)
  | vdict (l : List (String × PyVal))

/-- Python truthiness of a `PyVal`. -/
def pyTruthy : PyVal → Bool
  | .none => false
  | .vint n => n != 0
  | .vstr s => s != ""
  | .vdict l => !l.isEmpty

/-- Parse the digits of a decimal literal. -/
def digitsToNat : List Char → Option Nat
  | [] => Option.none
  | l => l.foldlM (fun acc c =>
      if asciiDigit c then Option.some (acc * 10 + (c.toNat - '0'.toNat))
      else Option.none) 0

/-- Python `int(str)`: surrounding whitespace and an optional sign are
accepted, anything else raises `ValueError`. -/
def pyIntOfStr (s : String) : Except String Int :=
  let t := stripBoth pySpace s.data
  match t with
  | '+' :: r => match digitsToNat r with
    | Option.some n => .ok (Int.ofNat n)
    | Option.none => .error "ValueError"
  | '-' :: r => match digitsToNat r with
    | Option.some n => .ok (-(Int.ofNat n))
    | Option.none => .error "ValueError"
  | r => match digitsToNat r with
    | Option.some n => .ok (Int.ofNat n)
    | Option.none => .error "ValueError"

/-- Python `int(x)` on a `PyVal`. -/
def pyInt : PyVal → Except String Int
  | .vint n => .ok n
  | .vstr s => pyIntOfStr s
  | .none => .error "TypeError"
  | .vdict _ => .error "TypeError"

/-- Python `dict(x)` on a `PyVal` (only mappings are accepted). -/
def pyDict : PyVal → Except String (List (String × PyVal))
  | .vdict l => .ok l
  | _ => .error "TypeError"

/-- Association-list lookup, i.e. Python `d.get(k)`. -/
def dGet (l : List (String × PyVal)) (k : String) : Option PyVal :=
  (l.find? (fun p => p.fst == k)).map Prod.snd

/-- Python `d[k] = v`: replace in place, or append a new key. -/
def dSet : List (String × PyVal) → String → PyVal → List (String × PyVal)
  | [], k, v => [(k, v)]
  | p :: r, k, v => if p.fst == k then (k, v) :: r else p :: dSet r k v

/-- `int(state.get(k) or 0)` — the counter coercion used by the threshold
lessons. -/
def coerceCounter (l : List (String × PyVal)) (k : String) : Except String Int :=
  match dGet l k with
  | Option.some v => if pyTruthy v then pyInt v else .ok 0
  | Option.none => .ok 0

/-! ## pronunciation_lessons.py and world_lessons.py -/

/-- One pronunciation lesson entry. -/
structure PronLesson where
  target : String
  prompt : String
  deriving DecidableEq

/-- `pronunciation_lessons._LESSONS`. -/
def pronLessons : List (Int × PronLesson) :=
  [ (1, ⟨"ااا", "لفظ حرف الالف هكذا ااا وقلها بعدي"⟩),
    (2, ⟨"ءء", "لفظ الهمزة هكذا ءء وقلها بعدي"⟩),
    (3, ⟨"اااأ", "لفظ الالف هكذا اااأ وقلها بعدي"⟩),
    (4, ⟨"ى", "لفظ الالف المقصورة هكذا ى وقلها بعدي"⟩),
    (5, ⟨"ىِ", "لفظ الالف المقصورة مع الكسرة هكذا ىِ وقلها بعدي"⟩) ]

/-- `_LESSONS.get(n)` for the pronunciation subject. -/
def pronLessonFind (n : Int) : Option PronLesson :=
  (pronLessons.find? (fun p => p.fst == n)).map Prod.snd

/-- `_LESSONS.get(int(lesson_no)) or _LESSONS[1]`. -/
def pronLessonGet (n : Int) : PronLesson :=
  (pronLessonFind n).getD ⟨"ااا", "لفظ حرف الالف هكذا ااا وقلها بعدي"⟩

/-- Result quadruple of a threshold-lesson turn:
`(reply text, updated lesson state, is_complete, emotion tag)`. -/
structure TurnResult where
  text : String
  state : List (String × PyVal)
  isComplete : Bool
  tag : String

/-- `pronunciation_lessons.handle_turn`.  `profile` is received but unused,
as in the source. -/
def pronHandleTurn (_profile : PyVal) (lesson_no : PyVal) (user_text : String)
    (state : PyVal) : Except String TurnResult := do
  let n ← pyInt lesson_no
  let info := pronLessonGet n
  let st ← pyDict (if pyTruthy state then state else .vdict [])
  let c ← coerceCounter st "correct"
  let st := dSet st "correct" (.vint c)
  let w ← coerceCounter st "wrong"
  let st := dSet st "wrong" (.vint w)
  let ok := norm_arabic user_text = norm_arabic info.target
  if ok then
    let st := dSet st "correct" (.vint (c + 1))
    if c + 1 ≥ 2 then
      return ⟨clean_arabic_plain "احسنت خلصنا الدرس", st, true, "celebrate"⟩
    else
      return ⟨clean_arabic_plain "احسنت كررها مرة ثانية", st, false, "celebrate"⟩
  else
    let st := dSet st "wrong" (.vint (w + 1))
    if w + 1 ≥ 10 then
      return ⟨clean_arabic_plain "حسنا ننتقل للدرس التالي", st, true, "frustration"⟩
    else
      return ⟨clean_arabic_plain "مو مثلها حاول مرة ثانية", st, false, "frustration"⟩

/-- One world-facts lesson entry. -/
structure WorldLesson where
  topic : String
  fact : String
  keywords : List String
  deriving DecidableEq

/-- `world_lessons._LESSONS`. -/
def worldLessons : List (Int × WorldLesson) :=
  [ (1, ⟨"الجذر", "الجذر جزء تحت الارض يمسك النبات ويمتص الماء",
      ["جذر", "يمتص", "ماء", "تحت", "ارض"]⟩),
    (2, ⟨"الساق", "الساق يحمل الاوراق والزهور وينقل الماء داخل النبات",
      ["ساق", "يحمل", "ينقل", "ماء", "نبات"]⟩),
    (3, ⟨"الورق", "الورق يصنع غذاء النبات بمساعدة ضوء الشمس",
      ["ورق", "غذاء", "شمس", "ضوء", "يصنع"]⟩),
    (4, ⟨"الزهرة", "الزهرة تساعد النبات على تكوين الثمرة والبذور",
      ["زهرة", "ثمرة", "بذور", "تكوين", "نبات"]⟩),
    (5, ⟨"الثمرة", "الثمرة تحمي البذور ونأكل بعض الثمار مثل التفاح",
      ["ثمرة", "بذور", "نأكل", "تفاح", "تحمي"]⟩) ]

/-- `_LESSONS.get(n)` for the world-facts subject. -/
def worldLessonFind (n : Int) : Option WorldLesson :=
  (worldLessons.find? (fun p => p.fst == n)).map Prod.snd

/-- `_LESSONS.get(int(lesson_no)) or _LESSONS[1]`. -/
def worldLessonGet (n : Int) : WorldLesson :=
  (worldLessonFind n).getD ⟨"الجذر", "الجذر جزء تحت الارض يمسك النبات ويمتص الماء",
    ["جذر", "يمتص", "ماء", "تحت", "ارض"]⟩

/-- The world-facts classifier:
`any(norm_arabic(k) in ut for k in info["keywords"])`. -/
def worldMatch (info : WorldLesson) (user_text : String) : Bool :=
  info.keywords.any (fun k => strContains (norm_arabic user_text) (norm_arabic k))

/-- `world_lessons.handle_turn`. -/
def worldHandleTurn (_profile : PyVal) (lesson_no : PyVal) (user_text : String)
    (state : PyVal) : Except String TurnResult := do
  let n ← pyInt lesson_no
  let info := worldLessonGet n
  let st ← pyDict (if pyTruthy state then state else .vdict [])
  let c ← coerceCounter st "correct"
  let st := dSet st "correct" (.vint c)
  let w ← coerceCounter st "wrong"
  let st := dSet st "wrong" (.vint w)
  if worldMatch info user_text then
    let st := dSet st "correct" (.vint (c + 1))
    if c + 1 ≥ 2 then
      return ⟨clean_arabic_plain "احسنت خلصنا الدرس", st, true, "celebrate"⟩
    else
      return ⟨clean_arabic_plain "احسنت قلها مرة ثانية", st, false, "celebrate"⟩
  else
    let st := dSet st "wrong" (.vint (w + 1))
    if w + 1 ≥ 10 then
      return ⟨clean_arabic_plain "حسنا ننتقل للدرس التالي", st, true, "frustration"⟩
    else
      return ⟨clean_arabic_plain "مو هذا قصدي حاول مرة ثانية", st, false, "frustration"⟩

/-! ## Heap model for the frame property of `handle_turn`

Python dicts are heap objects passed by reference.  To state that
`handle_turn` never mutates the caller's dict, the dict arguments are
modelled as addresses into an explicit store; `dict(state or {})` allocates
a fresh address and every subsequent write goes to that copy. -/

/-- A store of dict objects: a bump allocator plus a journal of writes
(the most recent binding of an address is the first hit). -/
structure Store where
  next : Nat
  mem : List (Nat × List (String × PyVal))

/-- Read the dict at address `a`. -/
def Store.read (σ : Store) (a : Nat) : Option (List (String × PyVal)) :=
  (σ.mem.find? (fun p => p.fst == a)).map Prod.snd

/-- Allocate a fresh dict object. -/
def Store.alloc (σ : Store) (d : List (String × PyVal)) : Nat × Store :=
  (σ.next, ⟨σ.next + 1, (σ.next, d) :: σ.mem⟩)

/-- Overwrite the dict at address `a`. -/
def Store.write (σ : Store) (a : Nat) (d : List (String × PyVal)) : Store :=
  ⟨σ.next, (a, d) :: σ.mem⟩

/-- `pronunciation_lessons.handle_turn` against the heap model: the caller's
state argument is an address (or `Option.none` for Python `None`).  Returns
the result together with the address of the fresh state dict. -/
def pronHandleTurnHeap (lesson_no : PyVal) (user_text : String)
    (stateRef : Option Nat) (σ : Store) : Except String (TurnResult × Nat × Store) := do
  let n ← pyInt lesson_no
  let info := pronLessonGet n
  -- state = dict(state or {})
  let d0 ← match stateRef with
    | Option.none => Except.ok []
    | Option.some a => match σ.read a with
      | Option.some d => Except.ok (if d.isEmpty then [] else d)
      | Option.none => Except.error "NameError"
  let (a', σ) := σ.alloc d0
  -- state["correct"] = int(state.get("correct") or 0)
  let c ← coerceCounter d0 "correct"
  let σ := σ.write a' (dSet d0 "correct" (.vint c))
  let d1 := dSet d0 "correct" (.vint c)
  let w ← coerceCounter d1 "wrong"
  let d2 := dSet d1 "wrong" (.vint w)
  let σ := σ.write a' d2
  let ok := norm_arabic user_text = norm_arabic info.target
  if ok then
    let d3 := dSet d2 "correct" (.vint (c + 1))
    let σ := σ.write a' d3
    if c + 1 ≥ 2 then
      return (⟨clean_arabic_plain "احسنت خلصنا الدرس", d3, true, "celebrate"⟩, a', σ)
    else
      return (⟨clean_arabic_plain "احسنت كررها مرة ثانية", d3, false, "celebrate"⟩, a', σ)
  else
    let d3 := dSet d2 "wrong" (.vint (w + 1))
    let σ := σ.write a' d3
    if w + 1 ≥ 10 then
      return (⟨clean_arabic_plain "حسنا ننتقل للدرس التالي", d3, true, "frustration"⟩, a', σ)
    else
      return (⟨clean_arabic_plain "مو مثلها حاول مرة ثانية", d3, false, "frustration"⟩, a', σ)

/-- `world_lessons.handle_turn` against the heap model. -/
def worldHandleTurnHeap (lesson_no : PyVal) (user_text : String)
    (stateRef : Option Nat) (σ : Store) : Except String (TurnResult × Nat × Store) := do
  let n ← pyInt lesson_no
  let info := worldLessonGet n
  let d0 ← match stateRef with
    | Option.none => Except.ok []
    | Option.some a => match σ.read a with
      | Option.some d => Except.ok (if d.isEmpty then [] else d)
      | Option.none => Except.error "NameError"
  let (a', σ) := σ.alloc d0
  let c ← coerceCounter d0 "correct"
  let σ := σ.write a' (dSet d0 "correct" (.vint c))
  let d1 := dSet d0 "correct" (.vint c)
  let w ← coerceCounter d1 "wrong"
  let d2 := dSet d1 "wrong" (.vint w)
  let σ := σ.write a' d2
  if worldMatch info user_text then
    let d3 := dSet d2 "correct" (.vint (c + 1))
    let σ := σ.write a' d3
    if c + 1 ≥ 2 then
      return (⟨clean_arabic_plain "احسنت خلصنا الدرس", d3, true, "celebrate"⟩, a', σ)
    else
      return (⟨clean_arabic_plain "احسنت قلها مرة ثانية", d3, false, "celebrate"⟩, a', σ)
  else
    let d3 := dSet d2 "wrong" (.vint (w + 1))
    let σ := σ.write a' d3
    if w + 1 ≥ 10 then
      return (⟨clean_arabic_plain "حسنا ننتقل للدرس التالي", d3, true, "frustration"⟩, a', σ)
    else
      return (⟨clean_arabic_plain "مو هذا قصدي حاول مرة ثانية", d3, false, "frustration"⟩, a', σ)

/-! ## arabic_agent.py -/

/-- The alef/hamza and teh-marbuta folding of `arabic_agent._norm_ar`. -/
def foldAgentVariant (c : Char) : Char :=
  if c = 'إ' ∨ c = 'أ' ∨ c = 'آ' then 'ا'
  else if c = 'ة' then 'ه'
  else c

/-- `arabic_agent._norm_ar` on character lists: strip, strip quotes, drop
tatweel, drop diacritics, fold alef/hamza forms and teh marbuta, replace
punctuation by spaces, collapse whitespace, strip. -/
def normArL (l : List Char) : List Char :=
  let s := stripBoth pySpace l
  let s := stripBoth quoteChar s
  let s := s.filter (fun c => !(c == 'ـ'))
  let s := s.filter (fun c => !arDia c)
  let s := s.map foldAgentVariant
  let s := s.map (fun c => if punctKeep c then c else ' ')
  stripBoth pySpace (collapseWS s false)

/-- `arabic_agent._norm_ar` on strings. -/
def normAr (s : String) : String :=
  String.mk (normArL s.data)

/-- One rule of `ArabicLessonAgent.LETTER_RULES`:
`(letter, name, accepted variants, close variants)`. -/
structure LetterRule where
  letter : Char
  name : String
  accepted : List String
  close : List String
  deriving DecidableEq

/-- `ArabicLessonAgent.LETTER_RULES`. -/
def LETTER_RULES : List LetterRule :=
  [ ⟨'ا', "ألف", ["الف", "ا", "الِف", "ألف"], ["الفه", "الـف"]⟩,
    ⟨'ب', "باء", ["باء", "با", "ب"], ["با", "بي"]⟩,
    ⟨'ت', "تاء", ["تاء", "تا", "ت"], ["تا", "تي"]⟩,
    ⟨'ث', "ثاء", ["ثاء", "ثا", "ث"], ["ثا"]⟩,
    ⟨'ج', "جيم", ["جيم", "جي", "ج"], ["جي"]⟩,
    ⟨'ح', "حاء", ["حاء", "حا", "ح"], ["حا"]⟩,
    ⟨'خ', "خاء", ["خاء", "خا", "خ"], ["خا"]⟩,
    ⟨'د', "دال", ["دال", "دا", "د"], ["دا"]⟩,
    ⟨'ذ', "ذال", ["ذال", "ذا", "ذ"], ["ذا"]⟩,
    ⟨'ر', "راء", ["راء", "را", "ر"], ["را"]⟩,
    ⟨'ز', "زاي", ["زاي", "زا", "ز"], ["زا"]⟩,
    ⟨'س', "سين", ["سين", "سي", "س"], ["سي"]⟩,
    ⟨'ش', "شين", ["شين", "شي", "ش"], ["شي"]⟩,
    ⟨'ص', "صاد", ["صاد", "صا", "ص"], ["صا"]⟩,
    ⟨'ض', "ضاد", ["ضاد", "ضا", "ض"], ["ضا"]⟩,
    ⟨'ط', "طاء", ["طاء", "طا", "ط"], ["طا"]⟩,
    ⟨'ظ', "ظاء", ["ظاء", "ظا", "ظ"], ["ظا"]⟩,
    ⟨'ع', "عين", ["عين", "عي", "ع"], ["عي"]⟩,
    ⟨'غ', "غين", ["غين", "غي", "غ"], ["غي"]⟩,
    ⟨'ف', "فاء", ["فاء", "فا", "ف"], ["فا"]⟩,
    ⟨'ق', "قاف", ["قاف", "قا", "ق"], ["قا"]⟩,
    ⟨'ك', "كاف", ["كاف", "كا", "ك"], ["كا"]⟩,
    ⟨'ل', "لام", ["لام", "لا", "ل"], ["لا"]⟩,
    ⟨'م', "ميم", ["ميم", "مي", "م"], ["مي"]⟩,
    ⟨'ن', "نون", ["نون", "نو", "ن"], ["نو"]⟩,
    ⟨'ه', "هاء", ["هاء", "ها", "ه"], ["ها"]⟩,
    ⟨'و', "واو", ["واو", "وا", "و"], ["وا"]⟩,
    ⟨'ي', "ياء", ["ياء", "يا", "ي"], ["يا"]⟩,
    ⟨'ة', "تاء مربوطة", ["تاء مربوطة", "ه", "ة", "اا", "آآ", "ااا"], ["ا", "aa"]⟩,
    ⟨'ء', "همزة", ["همزة", "ء"], ["ا"]⟩,
    ⟨'أ', "ألف", ["الف", "ألف", "ا"], ["الف"]⟩,
    ⟨'إ', "ألف", ["الف", "ألف", "ا"], ["الف"]⟩,
    ⟨'آ', "ألف", ["الف", "ألف", "ا"], ["الف"]⟩ ]

/-- Lookup in `LETTER_RULES`. -/
def letterRuleFind (c : Char) : Option LetterRule :=
  LETTER_RULES.find? (fun r => r.letter == c)

/-- `ArabicLessonAgent._letter_name`. -/
def letterName (c : Char) : String :=
  match letterRuleFind c with
  | Option.some r => r.name
  | Option.none =>
    if c = 'أ' ∨ c = 'إ' ∨ c = 'آ' then "ألف"
    else if c = 'ة' then "تاء مربوطة"
    else "هذا الحرف"

/-- `ArabicLessonAgent._judge_letter`: single-pass priority classifier
returning `"correct"`, `"close"` or `"wrong"`. -/
def judgeLetter (ans : String) (letter : Char) : String :=
  let ruleKey := if letter = 'أ' ∨ letter = 'إ' ∨ letter = 'آ' then 'ا' else letter
  let (name, accepted, close) :=
    match letterRuleFind ruleKey with
    | Option.some r => (r.name, r.accepted, r.close)
    | Option.none => (letterName letter, ([] : List String), ([] : List String))
  let _unused := name
  if ans = normAr (String.mk [letter]) then "correct"
  else if (accepted.map normAr).contains ans then "correct"
  else if (close.map normAr).contains ans then "close"
  else if ans ≠ "" ∧ normAr (String.mk [letter]) ≠ "" ∧
      ans.data.head? = (normAr (String.mk [letter])).data.head? then "close"
  else
    let accNorm := (accepted.map normAr).filter (fun a => a ≠ "")
    if ans ≠ "" ∧ accNorm.any (fun a =>
        a.data.isPrefixOf ans.data || ans.data.isPrefixOf a.data) then "close"
    else "wrong"

/-- `ArabicLessonAgent._split_letters`: keep Arabic-block characters, with
the fallback single alef for an empty result. -/
def splitLetters (word : String) : List Char :=
  let letters := word.data.filter arBlock
  if letters.isEmpty then ['ا'] else letters

/-- `arabic_agent.LessonState` (agent instance state). -/
structure ArState where
  active : Bool
  word : String
  letters : List Char
  i : Nat
  stage : String
  kid_name : String
  deriving DecidableEq

/-- `ArabicLessonAgent._format`: quote the stripped text, add the emotion
tag in parentheses and each motion code in angle brackets. -/
def arFormat (text : String) (emotion : String) (motions : List Int) : String :=
  let motionPart :=
    if motions.isEmpty then "<0>"
    else String.join (motions.map (fun m => "<" ++ toString m ++ ">"))
  "\"" ++ String.mk (stripBoth pySpace text.data) ++ "\" (" ++ emotion ++ ") " ++ motionPart

/-- Number of distinct characters, Python `len(set(s))`. -/
def distinctCount (l : List Char) : Nat :=
  (l.foldl (fun acc c => if c ∈ acc then acc else c :: acc) []).length

/-- Python `s.replace(" ", "")`. -/
def removeSpaces (s : String) : String :=
  String.mk (s.data.filter (fun c => !(c == ' ')))

/-- `ArabicLessonAgent.start`: activate the lesson on `word` and emit the
first-letter prompt. -/
def arStart (word : String) (kid : String) : String × ArState :=
  let letters := splitLetters word
  let st : ArState :=
    ⟨true, word, letters, 0, "letters", if kid = "" then "صديقي" else kid⟩
  -- `letters` is never empty (`_split_letters` falls back to an alef), so
  -- the Python indexing `letters[0]` cannot fail.
  let letter := letters.headD 'ا'
  let name := letterName letter
  let msg := "سنبدأ اليوم بحصة اللغة العربية. " ++ "سنتعلم تهجئة الأحرف. " ++
    "اخترنا كلمة " ++ word ++ ". " ++ "الحرف الأول هو " ++ String.mk [letter] ++
    ". قل بعدي " ++ name ++ "."
  (arFormat msg "teacher" [0], st)

/-- `ArabicLessonAgent._repeat_prompt`. -/
def arRepeatPrompt (st : ArState) : Except String String :=
  if st.stage = "letters" then
    match st.letters[st.i]? with
    | Option.none => .error "IndexError"
    | Option.some letter =>
      .ok (arFormat ("قل بعدي " ++ letterName letter ++ ".") "teacher" [0])
  else
    .ok (arFormat ("قل بعدي " ++ st.word ++ ".") "teacher" [0])

/-- `ArabicLessonAgent._handle_letter_step`. -/
def arHandleLetterStep (st : ArState) (ans : String) :
    Except String (Option String × ArState) := do
  let letter ← match st.letters[st.i]? with
    | Option.none => Except.error "IndexError"
    | Option.some l => Except.ok l
  let name := letterName letter
  let verdict := judgeLetter ans letter
  if verdict = "correct" then
    let i2 := st.i + 1
    if i2 < st.letters.length then
      let nextLetter ← match st.letters[i2]? with
        | Option.none => Except.error "IndexError"
        | Option.some l => Except.ok l
      let msg := "احسنت. " ++ "الحرف التالي هو " ++ String.mk [nextLetter] ++ ". " ++
        "قل بعدي " ++ letterName nextLetter ++ "."
      return (Option.some (arFormat msg "celebrate" [1, 1, 2, 2, 0]), { st with i := i2 })
    else
      let spelled := String.intercalate " " (st.letters.map (fun c => String.mk [c]))
      let msg := "احسنت. " ++ "الآن لنجمع الأحرف " ++ spelled ++ " تصبح " ++ st.word ++
        ". " ++ "قل بعدي " ++ st.word ++ "."
      return (Option.some (arFormat msg "celebrate" [1, 1, 2, 2, 0]),
        { st with i := i2, stage := "word" })
  else if verdict = "close" then
    return (Option.some (arFormat ("انت قريب من الاجابة. حاول مرة اخرى. قل " ++ name ++ ".")
      "frustration" [0]), st)
  else
    return (Option.some (arFormat ("خطأ، كرر محاولة مرة اخرى. قل بعدي " ++ name ++ ".")
      "frustration" [3, 4]), st)

/-- `ArabicLessonAgent._handle_word_step`. -/
def arHandleWordStep (st : ArState) (ans : String) : Option String × ArState :=
  let target := normAr st.word
  if ans = target ∨ removeSpaces ans = removeSpaces target then
    (Option.some (arFormat "انت رائع احسنت حقا وهنا تنتهي حصتنا لليوم" "happy" [0]),
      { st with active := false })
  else if distinctCount ans.data ≥ max 1 (distinctCount target.data - 1) then
    (Option.some (arFormat ("انت قريب من الاجابة. قل بعدي " ++ st.word ++ ".")
      "frustration" [0]), st)
  else
    (Option.some (arFormat ("خطأ، كرر محاولة مرة اخرى. قل بعدي " ++ st.word ++ ".")
      "frustration" [3, 4]), st)

/-- `ArabicLessonAgent.handle`: one turn of the spelling lesson. -/
def arHandle (st : ArState) (user_text : String) :
    Except String (Option String × ArState) := do
  if !st.active then
    return (Option.none, st)
  let t := normAr user_text
  if t = "" then
    let msg ← arRepeatPrompt st
    return (Option.some msg, st)
  if st.stage = "letters" then
    arHandleLetterStep st t
  else if st.stage = "word" then
    return arHandleWordStep st t
  else
    return (Option.none, { st with active := false })

/-! ## learn_animal.py and learn_plants.py -/

/-- The light normalizer `_norm` defined identically in `learn_animal.py`
and `learn_plants.py`: strip, lowercase, drop tashkeel `[ً-ٟ]`, fold alef
variants, teh marbuta and alef maksura. -/
def qaNorm (s : String) : String :=
  let t := stripBoth pySpace s.data
  let t := t.map Char.toLower
  let t := t.filter (fun c => !(decide (0x64B ≤ c.toNat ∧ c.toNat ≤ 0x65F)))
  let t := t.map (fun c =>
    if c = 'أ' ∨ c = 'إ' ∨ c = 'آ' then 'ا'
    else if c = 'ة' then 'ه'
    else if c = 'ى' then 'ي'
    else c)
  String.mk t

/-- `_fmt` defined identically in `learn_animal.py` and `learn_plants.py`. -/
def qaFmt (text : String) (emotion : String := "Teacher") (motion : Int := 0) : String :=
  "\"" ++ String.mk (stripBoth pySpace text.data) ++ "\" (" ++ emotion ++ ") <" ++
    toString motion ++ ">"

/-- `_Topic` of the science Q&A agents. -/
structure QaTopic where
  q : String
  correct_any : List String
  partial_any : List String
  hint_q : String
  explain : String

/-- `learn_animal.TOPICS`. -/
def animalTOPICS : List QaTopic :=
  [ ⟨"هل تعلم لماذا السمك لا يعيش على اليابسه",
      ["خياشيم", "لا يمتلك رئ", "يتنفس بالماء", "تنفس بالماء"],
      ["اقدام", "يمشي", "قدم"],
      "شنو الشي يساعدك تتنفس",
      "السمك يتنفس بالخياشيم مو بالرئتين لذلك خارج الماء يصير تنفسه صعب"⟩,
    ⟨"هل تعلم شنو يخزن الجمل داخل السنام مالته",
      ["دهون", "طاقه", "يخزن دهون"],
      ["ماء", "يشرب"],
      "لما نريد طاقه من الاكل شنو نسميها داخل الجسم",
      "السنام يخزن دهون مو ماء والدهون تتحول لطاقة وتساعده يتحمل الصحرا"⟩,
    ⟨"ليش البطريق ما يطير مثل باقي الطيور",
      ["يسبح", "جسمه ثقيل", "جناح للسباحه"],
      ["جناح صغير", "كسلان"],
      "وين يعيش البطريق اكثر شي بالمي لو بالهواء",
      "البطريق اجنحته صارت مثل زعانف تساعده يسبح وجسمه ثقيل فمو مهيأ للطيران"⟩ ]

/-- `AnimalLessonAgent.STOP_TRIGGERS`. -/
def animalSTOP : List String :=
  ["وقف", "خلاص", "انهاء", "انهي", "توقف", "رجع للدرده", "رجع للدردشة", "stop lesson"]

/-- `learn_plants.TOPICS`. -/
def plantTOPICS : List QaTopic :=
  [ ⟨"ليش النبات يحتاج ضوء الشمس",
      ["يصنع غذ", "يبني غذ", "يمتص ضوء", "طاقة", "تمثيل", "ضوئي"],
      ["ينمو", "يكبر"],
      "منين النبات يجيب اكله اذا ما ياكل مثلنا",
      "النبات يسوي غذائه بنفسه باستخدام ضوء الشمس والماء والهواء هذا اسمه التمثيل الضوئي"⟩,
    ⟨"شنو فايدة الجذور بالنبات",
      ["يمتص", "ماء", "املاح", "يثبت", "تثبيت"],
      ["يطول"],
      "اذا سحبنا النبات من التربه شنو الي يظل داخل الارض",
      "الجذور تمتص الماء والاملاح من التربه وتثبت النبات حتى ما يطيح"⟩,
    ⟨"ليش اغلب اوراق النبات لونها اخضر",
      ["كلوروف", "كلوروفيل", "يمتص", "ضوء"],
      ["صبغه"],
      "النبات بي ماده تمسك ضوء الشمس داخل الورقه شنو اسمها",
      "اللون الاخضر بسبب ماده اسمها كلوروفيل تساعد الورقه تمسك ضوء الشمس حتى يصير التمثيل الضوئي"⟩ ]

/-- `PlantLessonAgent.STOP_TRIGGERS` (no `انهي`, unlike the animal agent). -/
def plantSTOP : List String :=
  ["وقف", "خلاص", "انهاء", "توقف", "رجع للدرده", "رجع للدردشة", "stop lesson"]

/-- Instance state shared by `AnimalLessonAgent` and `PlantLessonAgent`:
`active`, `topic_i`, `stage`, `kid_name`. -/
structure QaState where
  active : Bool
  topic_i : Nat
  stage : String
  kid_name : String
  deriving DecidableEq

/-- The broadened hint-stage keywords of `learn_animal.py`. -/
def animalHintExtra : List String := ["رئ", "تنفس", "طاق", "مي", "ماء", "سبح"]

/-- The broadened hint-stage keywords of `learn_plants.py`. -/
def plantHintExtra : List String := ["غذا", "اكل", "ماء", "املاح", "ضوء", "كلورو"]

/-- The affirmative words accepted in the `want_more` stage. -/
def qaYes : List String := ["اي", "نعم", "اجل", "اكيد", "اريد", "yes"]

/-- The shared body of `AnimalLessonAgent.handle` / `PlantLessonAgent.handle`,
parameterised by the tables that differ between the two files.  The session
name placed in replies is the updated kid name. -/
def qaHandle (topics : List QaTopic) (stops : List String) (hintExtra : List String)
    (endMsg : String → String) (startWord : String)
    (st : QaState) (user_text : String) (kid_name : String) :
    Except String (Option String × QaState) := do
  let _unused := startWord
  if !st.active then
    return (Option.none, st)
  let kid := if kid_name = "" then st.kid_name else kid_name
  let st := { st with kid_name := kid }
  let t := qaNorm user_text
  if stops.any (fun k => strContains t (qaNorm k)) then
    return (Option.some (qaFmt ("تمام " ++ kid ++ " رجعنا للدردشة") "normal" 0),
      { st with active := false })
  let topic ← match topics[st.topic_i]? with
    | Option.none => Except.error "IndexError"
    | Option.some tp => Except.ok tp
  if st.stage = "ask" then
    if topic.correct_any.any (fun k => strContains t k) then
      return (Option.some (qaFmt ("احسنت " ++ kid ++ " " ++ topic.explain ++ " تحب سؤال ثاني")),
        { st with stage := "want_more" })
    else if topic.partial_any.any (fun k => strContains t k) then
      return (Option.some (qaFmt (endMsg "partial" ++ topic.hint_q)),
        { st with stage := "hint" })
    else
      return (Option.some (qaFmt (endMsg "unknown" ++ topic.hint_q)),
        { st with stage := "hint" })
  else if st.stage = "hint" then
    if topic.correct_any.any (fun k => strContains t k) ∨
        hintExtra.any (fun x => strContains t x) then
      return (Option.some (qaFmt ("تمام " ++ kid ++ " " ++ topic.explain ++ " تحب سؤال ثاني")),
        { st with stage := "want_more" })
    else
      return (Option.some (qaFmt ("ولا يهمك " ++ kid ++ " " ++ topic.explain ++ " تحب سؤال ثاني")),
        { st with stage := "want_more" })
  else if st.stage = "want_more" then
    if qaYes.any (fun x => strContains t x) then
      let i2 := (st.topic_i + 1) % topics.length
      let newTopic ← match topics[i2]? with
        | Option.none => Except.error "IndexError"
        | Option.some tp => Except.ok tp
      return (Option.some (qaFmt ("حلو " ++ kid ++ " السؤال الجديد " ++ newTopic.q)),
        { st with topic_i := i2, stage := "ask" })
    else
      return (Option.some (qaFmt (endMsg "bye")), { st with active := false })
  else
    return (Option.none, { st with active := false })

/-- The `ask`-stage fallback / `want_more` farewell texts that differ between
the two agents (animal file). -/
def animalMsg (kid : String) : String → String
  | "partial" => "اي ممكن هذا سبب بس اكو سبب اهم "
  | "unknown" => "قريب من الاجابه خليني اعطيك تلميح "
  | _ => "تمام " ++ kid ++ " اذا تحب نرجع للدردشة او ندرس نباتات كلي"

/-- The `ask`-stage fallback / `want_more` farewell texts of the plant
agent. -/
def plantMsg (kid : String) : String → String
  | "partial" => "اي هذا جزء من الجواب بس خليني اعطيك تلميح "
  | "unknown" => "قريب من الاجابه تلميح صغير "
  | _ => "تمام " ++ kid ++ " اذا تحب نرجع للدردشة او ندرس حيوانات كلي"

/-- `AnimalLessonAgent.handle`. -/
def animalHandle (st : QaState) (user_text : String) (kid_name : String) :
    Except String (Option String × QaState) :=
  qaHandle animalTOPICS animalSTOP animalHintExtra
    (animalMsg (if kid_name = "" then st.kid_name else kid_name)) "" st user_text kid_name

/-- `PlantLessonAgent.handle`. -/
def plantHandle (st : QaState) (user_text : String) (kid_name : String) :
    Except String (Option String × QaState) :=
  qaHandle plantTOPICS plantSTOP plantHintExtra
    (plantMsg (if kid_name = "" then st.kid_name else kid_name)) "" st user_text kid_name

/-! ## Curriculum router completion step

The router that persists a Progress Record (the `try_local` variant whose
`_last_progress_update` is read by `main.py`) is not part of the sources;
only its caller `main.py` and the subject modules it would dispatch to
(`pronunciation_lessons`, `world_lessons`, `stories_lessons`) are present.
The completion path is therefore modelled from the specification. -/

/-- Modelled from the spec: the fixed ordered enumeration of the
externally-persisted subjects whose lesson modules exist in the sources. -/
inductive Subject where
  | pronunciation
  | world
  | stories
  deriving DecidableEq

/-- Modelled from the spec: the fixed cyclic subject ordering. -/
def SUBJECTS : List Subject := [.pronunciation, .world, .stories]

/-- Index of a subject in the fixed ordering. -/
def subjIdx : Subject → Nat
  | .pronunciation => 0
  | .world => 1
  | .stories => 2

/-- Modelled from the spec: the externally-persisted Progress Record
(`subject`, `lesson_number`, `phase`, `lesson_state`, `await_new_session`). -/
structure Progress where
  subject : Subject
  lesson : Nat
  phase : String
  lesson_state : List (String × PyVal)
  await_new_session : Bool

/-- Modelled from the spec (missing router code, `§4.5`): on lesson
completion, advance to the next subject of the fixed ordering — wrapping
past the last subject increments the lesson number by one — reset the
lesson state, leave lesson mode, gate further routing, and emit a closing
remark tagged `Teacher`. -/
def onLessonComplete (p : Progress) : Progress × String :=
  let i := subjIdx p.subject
  let wrapped := i + 1 = SUBJECTS.length
  let nextSubject := (SUBJECTS.get? ((i + 1) % SUBJECTS.length)).getD .pronunciation
  (⟨nextSubject, if wrapped then p.lesson + 1 else p.lesson, "chat", [], true⟩,
    "Teacher")

/-- The progress part of the completion step, for iteration. -/
def completeStep (p : Progress) : Progress :=
  (onLessonComplete p).fst

/-! ## Auxiliary notions used by the statements and proofs -/

/-- No two adjacent whitespace characters (the shape of collapsed text). -/
def noWSRun : List Char → Bool
  | [] => true
  | [_] => true
  | a :: b :: r => !(pySpace a && pySpace b) && noWSRun (b :: r)

/-- Feed a sequence of utterances through a threshold-lesson turn function,
threading the returned state, and keep the last result. -/
def runTurns (f : String → PyVal → Except String TurnResult) (st : PyVal) :
    List String → Except String TurnResult
  | [] => .error "no turn"
  | [u] => f u st
  | u :: v :: rest => do
    let r ← f u st
    runTurns f (.vdict r.state) (v :: rest)

/-- Spelling-agent states reachable from a started session. -/
inductive ArReach : ArState → Prop where
  | start (word kid : String) : ArReach (arStart word kid).snd
  | step {st st' : ArState} {u : String} {r : Option String} :
      ArReach st → arHandle st u = .ok (r, st') → ArReach st'

end Paixi



namespace Paixi

/-! ## Generic lemmas about the character-list helpers -/

theorem mem_of_mem_dropWhile {p : Char → Bool} {l : List Char} {c : Char}
    (h : c ∈ l.dropWhile p) : c ∈ l := by
  induction l with
  | nil => simp [List.dropWhile] at h
  | cons a r ih =>
    rw [List.dropWhile_cons] at h
    by_cases hp : p a
    · rw [if_pos hp] at h
      exact List.mem_cons_of_mem _ (ih h)
    · rw [if_neg hp] at h
      exact h

theorem mem_of_mem_dropTrail {p : Char → Bool} {l : List Char} {c : Char}
    (h : c ∈ dropTrail p l) : c ∈ l := by
  induction l with
  | nil => simp [dropTrail] at h
  | cons a r ih =>
    simp only [dropTrail] at h
    by_cases hc : ((dropTrail p r).isEmpty && p a) = true
    · rw [if_pos hc] at h
      simp at h
    · rw [if_neg hc] at h
      rw [List.mem_cons] at h
      rcases h with h | h
      · exact h ▸ List.mem_cons_self a r
      · exact List.mem_cons_of_mem _ (ih h)

theorem mem_of_mem_stripBoth {p : Char → Bool} {l : List Char} {c : Char}
    (h : c ∈ stripBoth p l) : c ∈ l :=
  mem_of_mem_dropWhile (mem_of_mem_dropTrail h)

theorem dropWhile_eq_self_of_none {p : Char → Bool} {l : List Char}
    (h : ∀ c ∈ l, p c = false) : l.dropWhile p = l := by
  cases l with
  | nil => rfl
  | cons a r => simp [List.dropWhile, h a (List.mem_cons_self a r)]

theorem dropTrail_eq_self_of_none {p : Char → Bool} {l : List Char}
    (h : ∀ c ∈ l, p c = false) : dropTrail p l = l := by
  induction l with
  | nil => rfl
  | cons a r ih =>
    have ha : p a = false := h a (List.mem_cons_self a r)
    simp [dropTrail, ha, ih (fun c hc => h c (List.mem_cons_of_mem _ hc))]

theorem stripBoth_eq_self_of_none {p : Char → Bool} {l : List Char}
    (h : ∀ c ∈ l, p c = false) : stripBoth p l = l := by
  unfold stripBoth
  rw [dropWhile_eq_self_of_none h, dropTrail_eq_self_of_none h]

theorem head_dropWhile_false {p : Char → Bool} {l : List Char} {c : Char}
    (h : (l.dropWhile p).head? = Option.some c) : p c = false := by
  induction l with
  | nil => simp [List.dropWhile] at h
  | cons a r ih =>
    rw [List.dropWhile_cons] at h
    by_cases hp : p a
    · rw [if_pos hp] at h
      exact ih h
    · rw [if_neg hp] at h
      simp only [List.head?_cons, Option.some.injEq] at h
      subst h
      simpa using hp

theorem dropWhile_eq_self_of_head {p : Char → Bool} {l : List Char}
    (h : ∀ c, l.head? = Option.some c → p c = false) : l.dropWhile p = l := by
  cases l with
  | nil => rfl
  | cons a r => simp [List.dropWhile, h a rfl]

theorem dropTrail_head? {p : Char → Bool} {l : List Char}
    (h : dropTrail p l ≠ []) : (dropTrail p l).head? = l.head? := by
  cases l with
  | nil => simp [dropTrail] at h
  | cons a r =>
    simp only [dropTrail] at h ⊢
    by_cases hc : ((dropTrail p r).isEmpty && p a) = true
    · rw [if_pos hc] at h
      exact absurd rfl h
    · rw [if_neg hc]
      rfl

theorem dropTrail_idem {p : Char → Bool} (l : List Char) :
    dropTrail p (dropTrail p l) = dropTrail p l := by
  induction l with
  | nil => rfl
  | cons a r ih =>
    simp only [dropTrail]
    by_cases hc : ((dropTrail p r).isEmpty && p a) = true
    · rw [if_pos hc]
      rfl
    · rw [if_neg hc]
      simp only [dropTrail, ih]
      rw [if_neg hc]

theorem stripBoth_idem {p : Char → Bool} (l : List Char) :
    stripBoth p (stripBoth p l) = stripBoth p l := by
  unfold stripBoth
  have h1 : (dropTrail p (l.dropWhile p)).dropWhile p = dropTrail p (l.dropWhile p) := by
    apply dropWhile_eq_self_of_head
    intro c hc
    have hne : dropTrail p (l.dropWhile p) ≠ [] := by
      intro he
      rw [he] at hc
      simp at hc
    rw [dropTrail_head? hne] at hc
    exact head_dropWhile_false hc
  rw [h1, dropTrail_idem]

theorem dropTrail_length {p : Char → Bool} (l : List Char) :
    (dropTrail p l).length ≤ l.length := by
  induction l with
  | nil => simp [dropTrail]
  | cons a r ih =>
    simp only [dropTrail]
    by_cases hc : ((dropTrail p r).isEmpty && p a) = true
    · rw [if_pos hc]
      simp
    · rw [if_neg hc]
      simpa using ih

theorem dropWhile_length {p : Char → Bool} (l : List Char) :
    (l.dropWhile p).length ≤ l.length := by
  induction l with
  | nil => simp [List.dropWhile]
  | cons a r ih =>
    rw [List.dropWhile_cons]
    by_cases hp : p a
    · rw [if_pos hp]
      exact le_trans ih (Nat.le_succ _)
    · rw [if_neg hp]

theorem stripBoth_length {p : Char → Bool} (l : List Char) :
    (stripBoth p l).length ≤ l.length :=
  le_trans (dropTrail_length _) (dropWhile_length _)

theorem mem_of_mem_beforeLastSpace {l : List Char} {c : Char}
    (h : c ∈ beforeLastSpace l) : c ∈ l := by
  induction l with
  | nil => simp [beforeLastSpace] at h
  | cons a r ih =>
    simp only [beforeLastSpace] at h
    by_cases hm : ' ' ∈ r
    · rw [if_pos hm, List.mem_cons] at h
      rcases h with h | h
      · exact h ▸ List.mem_cons_self a r
      · exact List.mem_cons_of_mem _ (ih h)
    · rw [if_neg hm] at h
      by_cases ha : a = ' '
      · rw [if_pos ha] at h
        simp at h
      · rw [if_neg ha, List.mem_cons] at h
        rcases h with h | h
        · exact h ▸ List.mem_cons_self a r
        · exact List.mem_cons_of_mem _ (ih h)

theorem beforeLastSpace_length (l : List Char) :
    (beforeLastSpace l).length ≤ l.length := by
  induction l with
  | nil => simp [beforeLastSpace]
  | cons a r ih =>
    simp only [beforeLastSpace]
    by_cases hm : ' ' ∈ r
    · rw [if_pos hm]
      simpa using ih
    · rw [if_neg hm]
      by_cases ha : a = ' '
      · rw [if_pos ha]
        simp
      · rw [if_neg ha]
        simpa using ih

theorem map_eq_self_of_fixed {f : Char → Char} {l : List Char}
    (h : ∀ c ∈ l, f c = c) : l.map f = l := by
  induction l with
  | nil => rfl
  | cons a r ih =>
    simp [h a (List.mem_cons_self a r), ih (fun c hc => h c (List.mem_cons_of_mem _ hc))]

theorem filter_eq_self_of_all {p : Char → Bool} {l : List Char}
    (h : ∀ c ∈ l, p c = true) : l.filter p = l := by
  induction l with
  | nil => rfl
  | cons a r ih =>
    simp [List.filter, h a (List.mem_cons_self a r),
      ih (fun c hc => h c (List.mem_cons_of_mem _ hc))]

end Paixi

namespace Paixi

/-! ## Lemmas about whitespace collapsing -/

theorem collapseWS_mem {l : List Char} {b : Bool} {c : Char}
    (h : c ∈ collapseWS l b) : c = ' ' ∨ (c ∈ l ∧ pySpace c = false) := by
  induction l generalizing b with
  | nil => simp [collapseWS] at h
  | cons a r ih =>
    simp only [collapseWS] at h
    by_cases hp : pySpace a
    · rw [if_pos hp] at h
      by_cases hb : b
      · rw [if_pos hb] at h
        rcases ih h with h1 | h1
        · exact Or.inl h1
        · exact Or.inr ⟨List.mem_cons_of_mem _ h1.1, h1.2⟩
      · rw [if_neg hb, List.mem_cons] at h
        rcases h with h1 | h1
        · exact Or.inl h1
        · rcases ih h1 with h2 | h2
          · exact Or.inl h2
          · exact Or.inr ⟨List.mem_cons_of_mem _ h2.1, h2.2⟩
    · rw [if_neg hp, List.mem_cons] at h
      rcases h with h1 | h1
      · subst h1
        exact Or.inr ⟨List.mem_cons_self _ _, by simpa using hp⟩
      · rcases ih h1 with h2 | h2
        · exact Or.inl h2
        · exact Or.inr ⟨List.mem_cons_of_mem _ h2.1, h2.2⟩

theorem collapseWS_eq_self_of_nosp {l : List Char}
    (h : ∀ c ∈ l, pySpace c = false) : ∀ b, collapseWS l b = l := by
  induction l with
  | nil => intro b; rfl
  | cons a r ih =>
    intro b
    have ha : pySpace a = false := h a (List.mem_cons_self a r)
    simp [collapseWS, ha, ih (fun c hc => h c (List.mem_cons_of_mem _ hc))]

theorem collapseWS_shape {l : List Char} :
    ∀ b, noWSRun (collapseWS l b) = true ∧
      (b = true → ∀ c, (collapseWS l b).head? = Option.some c → pySpace c = false) := by
  induction l with
  | nil => intro b; exact ⟨rfl, fun _ c hc => by simp [collapseWS] at hc⟩
  | cons a r ih =>
    intro b
    by_cases hp : pySpace a
    · by_cases hb : b
      · subst hb
        simpa [collapseWS, hp] using ih true
      · have hbf : b = false := by simpa using hb
        subst hbf
        simp only [collapseWS, if_pos hp, if_neg (by simp : ¬(false = true))]
        constructor
        · -- noWSRun (' ' :: collapseWS r true)
          cases hrec : collapseWS r true with
          | nil => rfl
          | cons d q =>
            have hd : pySpace d = false := by
              have := (ih true).2 rfl d
              rw [hrec] at this
              exact this rfl
            have hnr : noWSRun (d :: q) = true := by
              have := (ih true).1
              rwa [hrec] at this
            simp [noWSRun, hd, hnr]
        · intro hfalse
          simp at hfalse
    · simp only [collapseWS, if_neg hp]
      constructor
      · cases hrec : collapseWS r false with
        | nil => rfl
        | cons d q =>
          have hnr : noWSRun (d :: q) = true := by
            have := (ih false).1
            rwa [hrec] at this
          simp only [noWSRun]
          rw [Bool.and_eq_true]
          refine ⟨?_, hnr⟩
          simp [hp]
      · intro _ c hc
        simp only [List.head?_cons, Option.some.injEq] at hc
        subst hc
        simpa using hp

theorem collapseWS_eq_self_of_shape {l : List Char}
    (hrun : noWSRun l = true) (hsp : ∀ c ∈ l, pySpace c = true → c = ' ') :
    collapseWS l false = l ∧
      ((∀ c, l.head? = Option.some c → pySpace c = false) → collapseWS l true = l) := by
  induction l with
  | nil => exact ⟨rfl, fun _ => rfl⟩
  | cons a r ih =>
    have hrun' : noWSRun r = true := by
      cases r with
      | nil => rfl
      | cons d q =>
        simp only [noWSRun, Bool.and_eq_true] at hrun
        exact hrun.2
    have hsp' : ∀ c ∈ r, pySpace c = true → c = ' ' :=
      fun c hc => hsp c (List.mem_cons_of_mem _ hc)
    by_cases hp : pySpace a
    · have ha : a = ' ' := hsp a (List.mem_cons_self a r) (by simpa using hp)
      have hrhead : ∀ c, r.head? = Option.some c → pySpace c = false := by
        intro c hc
        cases r with
        | nil => simp at hc
        | cons d q =>
          simp only [List.head?_cons, Option.some.injEq] at hc
          subst hc
          simp only [noWSRun, Bool.and_eq_true] at hrun
          rcases (by simpa using hrun.1 : pySpace a = false ∨ pySpace d = false) with h1 | h1
          · exact absurd h1 (by simp [hp])
          · exact h1
      constructor
      · simp only [collapseWS, if_pos hp, if_neg (by simp : ¬(false = true))]
        rw [(ih hrun' hsp').2 hrhead, ha]
      · intro hhead
        have := hhead a rfl
        rw [this] at hp
        simp at hp
    · constructor
      · simp only [collapseWS, if_neg hp]
        rw [(ih hrun' hsp').1]
      · intro _
        simp only [collapseWS, if_neg hp]
        rw [(ih hrun' hsp').1]

theorem noWSRun_tail {a : Char} {r : List Char}
    (h : noWSRun (a :: r) = true) : noWSRun r = true := by
  cases r with
  | nil => rfl
  | cons d q =>
    simp only [noWSRun, Bool.and_eq_true] at h
    exact h.2

theorem noWSRun_dropWhile {p : Char → Bool} {l : List Char}
    (h : noWSRun l = true) : noWSRun (l.dropWhile p) = true := by
  induction l with
  | nil => exact h
  | cons a r ih =>
    rw [List.dropWhile_cons]
    by_cases hp : p a
    · rw [if_pos hp]
      exact ih (noWSRun_tail h)
    · rw [if_neg hp]
      exact h

theorem dropTrail_sub_head {p : Char → Bool} {l : List Char} :
    dropTrail p l = [] ∨ ∃ r, l = (dropTrail p l) ++ r := by
  induction l with
  | nil => exact Or.inl rfl
  | cons a r ih =>
    simp only [dropTrail]
    by_cases hc : ((dropTrail p r).isEmpty && p a) = true
    · rw [if_pos hc]
      exact Or.inl rfl
    · rw [if_neg hc]
      rcases ih with h1 | ⟨q, hq⟩
      · right
        exact ⟨r, by rw [h1]; simp⟩
      · right
        exact ⟨q, by rw [List.cons_append, ← hq]⟩

theorem noWSRun_append_left {l r : List Char}
    (h : noWSRun (l ++ r) = true) : noWSRun l = true := by
  induction l with
  | nil => rfl
  | cons a q ih =>
    cases q with
    | nil => rfl
    | cons d w =>
      simp only [List.cons_append, noWSRun, Bool.and_eq_true] at h ⊢
      refine ⟨h.1, ih ?_⟩
      exact h.2

theorem noWSRun_dropTrail {p : Char → Bool} {l : List Char}
    (h : noWSRun l = true) : noWSRun (dropTrail p l) = true := by
  rcases dropTrail_sub_head (p := p) (l := l) with h1 | ⟨r, hr⟩
  · rw [h1]; rfl
  · exact noWSRun_append_left (hr ▸ h)

theorem noWSRun_stripBoth {p : Char → Bool} {l : List Char}
    (h : noWSRun l = true) : noWSRun (stripBoth p l) = true :=
  noWSRun_dropTrail (noWSRun_dropWhile h)

end Paixi

namespace Paixi

/-! ## Characterization of the normalizer outputs -/

theorem pySpace_cases {c : Char} (h : pySpace c = true) :
    c = ' ' ∨ c = '\t' ∨ c = '\n' ∨ c = '\r' ∨ c = '\x0b' ∨ c = '\x0c' := by
  unfold pySpace at h
  simp at h
  tauto

theorem arBlock_not_space {c : Char} (h : arBlock c = true) : pySpace c = false := by
  by_contra hws
  rcases pySpace_cases (by simpa using hws) with h1 | h1 | h1 | h1 | h1 | h1 <;>
    (subst h1; simp [arBlock] at h)

theorem foldArVariant_fix (c : Char) : foldArVariant (foldArVariant c) = foldArVariant c := by
  unfold foldArVariant
  by_cases h1 : c = 'أ' ∨ c = 'إ' ∨ c = 'آ'
  · rw [if_pos h1]
    decide
  · rw [if_neg h1]
    by_cases h2 : c = 'ؤ'
    · rw [if_pos h2]
      decide
    · rw [if_neg h2]
      by_cases h3 : c = 'ئ'
      · rw [if_pos h3]
        decide
      · rw [if_neg h3]
        by_cases h4 : c = 'ة'
        · rw [if_pos h4]
          decide
        · rw [if_neg h4]
          by_cases h5 : c = 'ى'
          · rw [if_pos h5]
            decide
          · rw [if_neg h5, if_neg h1, if_neg h2, if_neg h3, if_neg h4, if_neg h5]

theorem foldArVariant_arBlock {c : Char} (h : arBlock c = true) :
    arBlock (foldArVariant c) = true := by
  unfold foldArVariant
  by_cases h1 : c = 'أ' ∨ c = 'إ' ∨ c = 'آ'
  · rw [if_pos h1]; decide
  · rw [if_neg h1]
    by_cases h2 : c = 'ؤ'
    · rw [if_pos h2]; decide
    · rw [if_neg h2]
      by_cases h3 : c = 'ئ'
      · rw [if_pos h3]; decide
      · rw [if_neg h3]
        by_cases h4 : c = 'ة'
        · rw [if_pos h4]; decide
        · rw [if_neg h4]
          by_cases h5 : c = 'ى'
          · rw [if_pos h5]; decide
          · rw [if_neg h5]; exact h

theorem foldArVariant_not_tashkeel {c : Char} (h : tashkeel c = false) :
    tashkeel (foldArVariant c) = false := by
  unfold foldArVariant
  by_cases h1 : c = 'أ' ∨ c = 'إ' ∨ c = 'آ'
  · rw [if_pos h1]; decide
  · rw [if_neg h1]
    by_cases h2 : c = 'ؤ'
    · rw [if_pos h2]; decide
    · rw [if_neg h2]
      by_cases h3 : c = 'ئ'
      · rw [if_pos h3]; decide
      · rw [if_neg h3]
        by_cases h4 : c = 'ة'
        · rw [if_pos h4]; decide
        · rw [if_neg h4]
          by_cases h5 : c = 'ى'
          · rw [if_pos h5]; decide
          · rw [if_neg h5]; exact h

/-- Every character of a cleaned list is in the Arabic block or a plain
space. -/
theorem clean_chars {m : Nat} {l : List Char} :
    ∀ c ∈ clean_arabic_plainL m l, arBlock c = true ∨ c = ' ' := by
  intro c hc
  have key : ∀ d ∈ stripBoth pySpace (collapseWS
      ((stripBoth pySpace l).map (fun e => if arBlock e || pySpace e then e else ' '))
      false), arBlock d = true ∨ d = ' ' := by
    intro d hd
    have hd2 := mem_of_mem_stripBoth hd
    rcases collapseWS_mem hd2 with h1 | ⟨h1, hns⟩
    · exact Or.inr h1
    · rw [List.mem_map] at h1
      obtain ⟨e, _, heq⟩ := h1
      by_cases hb : (arBlock e || pySpace e) = true
      · rw [if_pos hb] at heq
        subst heq
        rcases Bool.or_eq_true_iff.mp hb with h2 | h2
        · exact Or.inl h2
        · rw [h2] at hns
          simp at hns
      · rw [if_neg hb] at heq
        exact Or.inr heq.symm
  simp only [clean_arabic_plainL] at hc
  split at hc
  · split at hc
    · exact key c (List.take_subset _ _ hc)
    · exact key c (List.take_subset _ _
        (mem_of_mem_beforeLastSpace (mem_of_mem_stripBoth hc)))
  · exact key c hc

/-- A cleaned list never exceeds its length bound. -/
theorem clean_len {m : Nat} {l : List Char} :
    (clean_arabic_plainL m l).length ≤ m := by
  simp only [clean_arabic_plainL]
  split
  · split
    · simp
    · exact le_trans (stripBoth_length _)
        (le_trans (beforeLastSpace_length _) (by simp))
  · omega

/-- Characters of `norm_arabic` output: Arabic-block, no tashkeel, fixed
under the variant folding, and not whitespace. -/
theorem norm_chars {l : List Char} :
    ∀ c ∈ norm_arabicL l,
      arBlock c = true ∧ tashkeel c = false ∧ foldArVariant c = c ∧ pySpace c = false := by
  intro c hc
  simp only [norm_arabicL] at hc
  have hc1 := mem_of_mem_stripBoth hc
  rw [List.mem_filter] at hc1
  obtain ⟨hmem, hnws⟩ := hc1
  rw [List.mem_map] at hmem
  obtain ⟨e, hemem, heq⟩ := hmem
  rw [List.mem_filter] at hemem
  obtain ⟨heclean, hetash⟩ := hemem
  rcases clean_chars e heclean with harb | hsp
  · subst heq
    refine ⟨foldArVariant_arBlock harb, foldArVariant_not_tashkeel (by simpa using hetash),
      foldArVariant_fix e, ?_⟩
    exact arBlock_not_space (foldArVariant_arBlock harb)
  · subst hsp
    subst heq
    simp [foldArVariant] at hnws
    exact absurd hnws (by decide)

/-- `norm_arabic` output stays within the 500-character bound. -/
theorem norm_len (l : List Char) : (norm_arabicL l).length ≤ 500 := by
  simp only [norm_arabicL]
  refine le_trans (stripBoth_length _) (le_trans (List.length_filter_le _ _) ?_)
  rw [List.length_map]
  exact le_trans (List.length_filter_le _ _) clean_len

end Paixi

namespace Paixi

/-! ## Idempotence of `lesson_base.norm_arabic` -/

theorem norm_arabicL_idem (l : List Char) :
    norm_arabicL (norm_arabicL l) = norm_arabicL l := by
  have hc := norm_chars (l := l)
  have hlen : (norm_arabicL l).length ≤ 500 := norm_len l
  set y := norm_arabicL l with hy
  have hws : ∀ c ∈ y, pySpace c = false := fun c h => (hc c h).2.2.2
  have harb : ∀ c ∈ y, arBlock c = true := fun c h => (hc c h).1
  have hclean : clean_arabic_plainL 500 y = y := by
    simp only [clean_arabic_plainL]
    rw [stripBoth_eq_self_of_none hws]
    rw [map_eq_self_of_fixed (fun c h => by rw [if_pos]; rw [harb c h]; simp)]
    rw [collapseWS_eq_self_of_nosp hws false]
    rw [stripBoth_eq_self_of_none hws]
    rw [if_neg (Nat.not_lt.mpr hlen)]
  have hfil1 : y.filter (fun c => !tashkeel c) = y :=
    filter_eq_self_of_all (fun c h => by rw [(hc c h).2.1]; rfl)
  have hmap : y.map foldArVariant = y :=
    map_eq_self_of_fixed (fun c h => (hc c h).2.2.1)
  have hfil2 : y.filter (fun c => !pySpace c) = y :=
    filter_eq_self_of_all (fun c h => by rw [hws c h]; rfl)
  have hstrip : stripBoth pySpace y = y := stripBoth_eq_self_of_none hws
  show norm_arabicL y = y
  simp only [norm_arabicL]
  rw [hclean, hfil1, hmap, hfil2, hstrip]

end Paixi

namespace Paixi

/-! ## Characterization and idempotence of `arabic_agent._norm_ar` -/

theorem foldAgentVariant_fix (c : Char) :
    foldAgentVariant (foldAgentVariant c) = foldAgentVariant c := by
  unfold foldAgentVariant
  by_cases h1 : c = 'إ' ∨ c = 'أ' ∨ c = 'آ'
  · rw [if_pos h1]
    decide
  · rw [if_neg h1]
    by_cases h2 : c = 'ة'
    · rw [if_pos h2]
      decide
    · rw [if_neg h2, if_neg h1, if_neg h2]

theorem foldAgentVariant_not_tatweel {c : Char} (h : (c == 'ـ') = false) :
    (foldAgentVariant c == 'ـ') = false := by
  unfold foldAgentVariant
  by_cases h1 : c = 'إ' ∨ c = 'أ' ∨ c = 'آ'
  · rw [if_pos h1]; decide
  · rw [if_neg h1]
    by_cases h2 : c = 'ة'
    · rw [if_pos h2]; decide
    · rw [if_neg h2]; exact h

theorem foldAgentVariant_not_dia {c : Char} (h : arDia c = false) :
    arDia (foldAgentVariant c) = false := by
  unfold foldAgentVariant
  by_cases h1 : c = 'إ' ∨ c = 'أ' ∨ c = 'آ'
  · rw [if_pos h1]; decide
  · rw [if_neg h1]
    by_cases h2 : c = 'ة'
    · rw [if_pos h2]; decide
    · rw [if_neg h2]; exact h

theorem punctKeep_no_quote {c : Char} (h : punctKeep c = true) : quoteChar c = false := by
  by_contra hq
  have hq2 : quoteChar c = true := by simpa using hq
  have : c = '"' ∨ c = '\'' := by
    unfold quoteChar at hq2
    simpa using hq2
  rcases this with h1 | h1 <;> (subst h1; simp [punctKeep, arBlock, asciiDigit, asciiLetter, pySpace] at h)

theorem normArL_chars {l : List Char} :
    ∀ c ∈ normArL l,
      (pySpace c = true → c = ' ') ∧ punctKeep c = true ∧ quoteChar c = false ∧
      (c == 'ـ') = false ∧ arDia c = false ∧ foldAgentVariant c = c := by
  intro c hc
  simp only [normArL] at hc
  have hc1 := mem_of_mem_stripBoth hc
  rcases collapseWS_mem hc1 with hsp | ⟨hmem, hnws⟩
  · subst hsp
    refine ⟨fun _ => rfl, by decide, by decide, by decide, by decide, by decide⟩
  · rw [List.mem_map] at hmem
    obtain ⟨z, hzmem, hzeq⟩ := hmem
    by_cases hk : punctKeep z = true
    · rw [if_pos hk] at hzeq
      subst hzeq
      rw [List.mem_map] at hzmem
      obtain ⟨w, hwmem, hweq⟩ := hzmem
      rw [List.mem_filter] at hwmem
      obtain ⟨hwmem2, hwdia⟩ := hwmem
      rw [List.mem_filter] at hwmem2
      obtain ⟨_, hwtat⟩ := hwmem2
      subst hweq
      refine ⟨fun hws => absurd hws (by simp [hnws]), hk,
        punctKeep_no_quote hk,
        foldAgentVariant_not_tatweel (by simpa using hwtat),
        foldAgentVariant_not_dia (by simpa using hwdia),
        foldAgentVariant_fix w⟩
    · rw [if_neg hk] at hzeq
      subst hzeq
      exact absurd hnws (by decide)

theorem normArL_noWSRun (l : List Char) : noWSRun (normArL l) = true := by
  simp only [normArL]
  exact noWSRun_stripBoth (collapseWS_shape _).1

theorem normArL_strip (l : List Char) :
    stripBoth pySpace (normArL l) = normArL l := by
  have h : normArL l = stripBoth pySpace (collapseWS
      (((((stripBoth quoteChar (stripBoth pySpace l)).filter
        (fun c => !(c == 'ـ'))).filter (fun c => !arDia c)).map
        foldAgentVariant).map (fun c => if punctKeep c then c else ' ')) false) := rfl
  rw [h, stripBoth_idem]

theorem normArL_idem (l : List Char) : normArL (normArL l) = normArL l := by
  have hc := normArL_chars (l := l)
  set y := normArL l with hy
  have h1 : stripBoth pySpace y = y := normArL_strip l
  have hquote : stripBoth quoteChar y = y :=
    stripBoth_eq_self_of_none (fun c h => (hc c h).2.2.1)
  have hfil1 : y.filter (fun c => !(c == 'ـ')) = y :=
    filter_eq_self_of_all (fun c h => by rw [(hc c h).2.2.2.1]; rfl)
  have hfil2 : y.filter (fun c => !arDia c) = y :=
    filter_eq_self_of_all (fun c h => by rw [(hc c h).2.2.2.2.1]; rfl)
  have hmap1 : y.map foldAgentVariant = y :=
    map_eq_self_of_fixed (fun c h => (hc c h).2.2.2.2.2)
  have hmap2 : y.map (fun c => if punctKeep c then c else ' ') = y :=
    map_eq_self_of_fixed (fun c h => if_pos ((hc c h).2.1))
  have hcol : collapseWS y false = y := by
    have hrun : noWSRun y = true := noWSRun_stripBoth (collapseWS_shape _).1
    exact (collapseWS_eq_self_of_shape hrun (fun c h => (hc c h).1)).1
  show normArL y = y
  simp only [normArL]
  rw [h1, hquote, hfil1, hfil2, hmap1, hmap2, hcol, h1]

/-! ## Idempotence on strings -/

theorem norm_arabic_idem (s : String) : norm_arabic (norm_arabic s) = norm_arabic s := by
  unfold norm_arabic
  rw [norm_arabicL_idem]

theorem normAr_idem (s : String) : normAr (normAr s) = normAr s := by
  unfold normAr
  rw [normArL_idem]

end Paixi

namespace Paixi

theorem coerceCounter_vint {l : List (String × PyVal)} {k : String} {m : Int}
    (h : dGet l k = Option.some (.vint m)) : coerceCounter l k = .ok m := by
  unfold coerceCounter
  rw [h]
  by_cases hm : m = 0
  · subst hm
    simp [pyTruthy]
  · simp [pyTruthy, hm, pyInt]

theorem pronHandleTurn_vint (p : PyVal) (n : Int) (utt : String) (c w : Int) :
    pronHandleTurn p (.vint n) utt (.vdict [("correct", .vint c), ("wrong", .vint w)]) =
      (if norm_arabic utt = norm_arabic (pronLessonGet n).target then
        if 2 ≤ c + 1 then
          .ok ⟨clean_arabic_plain "احسنت خلصنا الدرس",
            [("correct", .vint (c + 1)), ("wrong", .vint w)], true, "celebrate"⟩
        else
          .ok ⟨clean_arabic_plain "احسنت كررها مرة ثانية",
            [("correct", .vint (c + 1)), ("wrong", .vint w)], false, "celebrate"⟩
      else
        if 10 ≤ w + 1 then
          .ok ⟨clean_arabic_plain "حسنا ننتقل للدرس التالي",
            [("correct", .vint c), ("wrong", .vint (w + 1))], true, "frustration"⟩
        else
          .ok ⟨clean_arabic_plain "مو مثلها حاول مرة ثانية",
            [("correct", .vint c), ("wrong", .vint (w + 1))], false, "frustration"⟩) := by
  have h1 : coerceCounter [("correct", PyVal.vint c), ("wrong", PyVal.vint w)] "correct" =
      Except.ok c := coerceCounter_vint rfl
  have h2 : coerceCounter [("correct", PyVal.vint c), ("wrong", PyVal.vint w)] "wrong" =
      Except.ok w := coerceCounter_vint rfl
  by_cases hB : norm_arabic utt = norm_arabic (pronLessonGet n).target
  · by_cases hC : (2 : Int) ≤ c + 1
    · simp [pronHandleTurn, pyInt, pyDict, pyTruthy, bind, Except.bind, pure, Except.pure, dSet, h1, h2, hB, hC]
    · simp [pronHandleTurn, pyInt, pyDict, pyTruthy, bind, Except.bind, pure, Except.pure, dSet, h1, h2, hB, hC]
  · by_cases hD : (10 : Int) ≤ w + 1
    · simp [pronHandleTurn, pyInt, pyDict, pyTruthy, bind, Except.bind, pure, Except.pure, dSet, h1, h2, hB, hD]
    · simp [pronHandleTurn, pyInt, pyDict, pyTruthy, bind, Except.bind, pure, Except.pure, dSet, h1, h2, hB, hD]

theorem worldHandleTurn_vint (p : PyVal) (n : Int) (utt : String) (c w : Int) :
    worldHandleTurn p (.vint n) utt (.vdict [("correct", .vint c), ("wrong", .vint w)]) =
      (if worldMatch (worldLessonGet n) utt = true then
        if 2 ≤ c + 1 then
          .ok ⟨clean_arabic_plain "احسنت خلصنا الدرس",
            [("correct", .vint (c + 1)), ("wrong", .vint w)], true, "celebrate"⟩
        else
          .ok ⟨clean_arabic_plain "احسنت قلها مرة ثانية",
            [("correct", .vint (c + 1)), ("wrong", .vint w)], false, "celebrate"⟩
      else
        if 10 ≤ w + 1 then
          .ok ⟨clean_arabic_plain "حسنا ننتقل للدرس التالي",
            [("correct", .vint c), ("wrong", .vint (w + 1))], true, "frustration"⟩
        else
          .ok ⟨clean_arabic_plain "مو هذا قصدي حاول مرة ثانية",
            [("correct", .vint c), ("wrong", .vint (w + 1))], false, "frustration"⟩) := by
  have h1 : coerceCounter [("correct", PyVal.vint c), ("wrong", PyVal.vint w)] "correct" =
      Except.ok c := coerceCounter_vint rfl
  have h2 : coerceCounter [("correct", PyVal.vint c), ("wrong", PyVal.vint w)] "wrong" =
      Except.ok w := coerceCounter_vint rfl
  by_cases hB : worldMatch (worldLessonGet n) utt = true
  · by_cases hC : (2 : Int) ≤ c + 1
    · simp [worldHandleTurn, pyInt, pyDict, pyTruthy, bind, Except.bind, pure, Except.pure, dSet, h1, h2, hB, hC]
    · simp [worldHandleTurn, pyInt, pyDict, pyTruthy, bind, Except.bind, pure, Except.pure, dSet, h1, h2, hB, hC]
  · by_cases hD : (10 : Int) ≤ w + 1
    · simp [worldHandleTurn, pyInt, pyDict, pyTruthy, bind, Except.bind, pure, Except.pure, dSet, h1, h2, hB, hD]
    · simp [worldHandleTurn, pyInt, pyDict, pyTruthy, bind, Except.bind, pure, Except.pure, dSet, h1, h2, hB, hD]

end Paixi

namespace Paixi

theorem runTurns_pron_wrong (p : PyVal) (n : Int) :
    ∀ (utts : List String) (c w : Int), utts ≠ [] →
    (∀ u ∈ utts, ¬(norm_arabic u = norm_arabic (pronLessonGet n).target)) →
    runTurns (fun u st => pronHandleTurn p (.vint n) u st)
        (.vdict [("correct", .vint c), ("wrong", .vint w)]) utts =
      (if 10 ≤ w + (utts.length : Int) then
        .ok ⟨clean_arabic_plain "حسنا ننتقل للدرس التالي",
          [("correct", .vint c), ("wrong", .vint (w + (utts.length : Int)))], true, "frustration"⟩
      else
        .ok ⟨clean_arabic_plain "مو مثلها حاول مرة ثانية",
          [("correct", .vint c), ("wrong", .vint (w + (utts.length : Int)))], false,
          "frustration"⟩) := by
  intro utts
  induction utts with
  | nil => intro c w hne _; exact absurd rfl hne
  | cons u rest ih =>
    intro c w _ hall
    have hu : ¬(norm_arabic u = norm_arabic (pronLessonGet n).target) :=
      hall u (List.mem_cons_self u rest)
    cases rest with
    | nil =>
      show pronHandleTurn p (.vint n) u (.vdict [("correct", .vint c), ("wrong", .vint w)]) = _
      rw [pronHandleTurn_vint, if_neg hu]
      norm_num
    | cons v q =>
      show (do
        let r ← pronHandleTurn p (.vint n) u (.vdict [("correct", .vint c), ("wrong", .vint w)])
        runTurns (fun u st => pronHandleTurn p (.vint n) u st) (.vdict r.state) (v :: q)) = _
      rw [pronHandleTurn_vint, if_neg hu]
      have hrest : ∀ x ∈ v :: q, ¬(norm_arabic x = norm_arabic (pronLessonGet n).target) :=
        fun x hx => hall x (List.mem_cons_of_mem _ hx)
      have harith : w + 1 + (((v :: q).length : Nat) : Int) =
          w + (((u :: v :: q).length : Nat) : Int) := by
        push_cast [List.length_cons]
        ring
      by_cases h10 : (10 : Int) ≤ w + 1
      · rw [if_pos h10]
        show runTurns (fun u st => pronHandleTurn p (.vint n) u st)
          (.vdict [("correct", .vint c), ("wrong", .vint (w + 1))]) (v :: q) = _
        rw [ih c (w + 1) (by simp) hrest, harith]
      · rw [if_neg h10]
        show runTurns (fun u st => pronHandleTurn p (.vint n) u st)
          (.vdict [("correct", .vint c), ("wrong", .vint (w + 1))]) (v :: q) = _
        rw [ih c (w + 1) (by simp) hrest, harith]

end Paixi

namespace Paixi

theorem runTurns_world_wrong (p : PyVal) (n : Int) :
    ∀ (utts : List String) (c w : Int), utts ≠ [] →
    (∀ u ∈ utts, ¬(worldMatch (worldLessonGet n) u = true)) →
    runTurns (fun u st => worldHandleTurn p (.vint n) u st)
        (.vdict [("correct", .vint c), ("wrong", .vint w)]) utts =
      (if 10 ≤ w + (utts.length : Int) then
        .ok ⟨clean_arabic_plain "حسنا ننتقل للدرس التالي",
          [("correct", .vint c), ("wrong", .vint (w + (utts.length : Int)))], true, "frustration"⟩
      else
        .ok ⟨clean_arabic_plain "مو هذا قصدي حاول مرة ثانية",
          [("correct", .vint c), ("wrong", .vint (w + (utts.length : Int)))], false,
          "frustration"⟩) := by
  intro utts
  induction utts with
  | nil => intro c w hne _; exact absurd rfl hne
  | cons u rest ih =>
    intro c w _ hall
    have hu : ¬(worldMatch (worldLessonGet n) u = true) :=
      hall u (List.mem_cons_self u rest)
    cases rest with
    | nil =>
      show worldHandleTurn p (.vint n) u (.vdict [("correct", .vint c), ("wrong", .vint w)]) = _
      rw [worldHandleTurn_vint, if_neg hu]
      norm_num
    | cons v q =>
      show (do
        let r ← worldHandleTurn p (.vint n) u (.vdict [("correct", .vint c), ("wrong", .vint w)])
        runTurns (fun u st => worldHandleTurn p (.vint n) u st) (.vdict r.state) (v :: q)) = _
      rw [worldHandleTurn_vint, if_neg hu]
      have hrest : ∀ x ∈ v :: q, ¬(worldMatch (worldLessonGet n) x = true) :=
        fun x hx => hall x (List.mem_cons_of_mem _ hx)
      have harith : w + 1 + (((v :: q).length : Nat) : Int) =
          w + (((u :: v :: q).length : Nat) : Int) := by
        push_cast [List.length_cons]
        ring
      by_cases h10 : (10 : Int) ≤ w + 1
      · rw [if_pos h10]
        show runTurns (fun u st => worldHandleTurn p (.vint n) u st)
          (.vdict [("correct", .vint c), ("wrong", .vint (w + 1))]) (v :: q) = _
        rw [ih c (w + 1) (by simp) hrest, harith]
      · rw [if_neg h10]
        show runTurns (fun u st => worldHandleTurn p (.vint n) u st)
          (.vdict [("correct", .vint c), ("wrong", .vint (w + 1))]) (v :: q) = _
        rw [ih c (w + 1) (by simp) hrest, harith]

/-- Claim C1: for the threshold-based lessons (pronunciation and
world-facts), `handle_turn` starting from a state with `correct = 0` and any
wrong count returns `isComplete = false` with tag `celebrate` on the first
correct-classified answer, and `isComplete = true` with tag `celebrate` on
the second — the lesson completes on exactly the 2nd correct
classification, never the 1st. -/
theorem threshold_second_correct_completes :
    (∀ (p : PyVal) (n w : Int) (utt : String),
      norm_arabic utt = norm_arabic (pronLessonGet n).target →
      pronHandleTurn p (.vint n) utt (.vdict [("correct", .vint 0), ("wrong", .vint w)]) =
        .ok ⟨clean_arabic_plain "احسنت كررها مرة ثانية",
          [("correct", .vint 1), ("wrong", .vint w)], false, "celebrate"⟩ ∧
      pronHandleTurn p (.vint n) utt (.vdict [("correct", .vint 1), ("wrong", .vint w)]) =
        .ok ⟨clean_arabic_plain "احسنت خلصنا الدرس",
          [("correct", .vint 2), ("wrong", .vint w)], true, "celebrate"⟩) ∧
    (∀ (p : PyVal) (n w : Int) (utt : String),
      worldMatch (worldLessonGet n) utt = true →
      worldHandleTurn p (.vint n) utt (.vdict [("correct", .vint 0), ("wrong", .vint w)]) =
        .ok ⟨clean_arabic_plain "احسنت قلها مرة ثانية",
          [("correct", .vint 1), ("wrong", .vint w)], false, "celebrate"⟩ ∧
      worldHandleTurn p (.vint n) utt (.vdict [("correct", .vint 1), ("wrong", .vint w)]) =
        .ok ⟨clean_arabic_plain "احسنت خلصنا الدرس",
          [("correct", .vint 2), ("wrong", .vint w)], true, "celebrate"⟩) := by
  constructor
  · intro p n w utt h
    constructor
    · rw [pronHandleTurn_vint, if_pos h]
      norm_num
    · rw [pronHandleTurn_vint, if_pos h]
      norm_num
  · intro p n w utt h
    constructor
    · rw [worldHandleTurn_vint, if_pos h]
      norm_num
    · rw [worldHandleTurn_vint, if_pos h]
      norm_num

/-- Witness for C1 at concrete inputs: lesson 1 of each subject, the
pronunciation target itself and a root-keyword sentence. -/
theorem threshold_second_correct_completes_check :
    pronHandleTurn .none (.vint 1) "ااا"
        (.vdict [("correct", .vint 0), ("wrong", .vint 3)]) =
      .ok ⟨clean_arabic_plain "احسنت كررها مرة ثانية",
        [("correct", .vint 1), ("wrong", .vint 3)], false, "celebrate"⟩ ∧
    pronHandleTurn .none (.vint 1) "ااا"
        (.vdict [("correct", .vint 1), ("wrong", .vint 3)]) =
      .ok ⟨clean_arabic_plain "احسنت خلصنا الدرس",
        [("correct", .vint 2), ("wrong", .vint 3)], true, "celebrate"⟩ ∧
    worldHandleTurn .none (.vint 1) "الجذر يمتص الماء"
        (.vdict [("correct", .vint 1), ("wrong", .vint 0)]) =
      .ok ⟨clean_arabic_plain "احسنت خلصنا الدرس",
        [("correct", .vint 2), ("wrong", .vint 0)], true, "celebrate"⟩ :=
  ⟨(threshold_second_correct_completes.1 .none 1 3 "ااا" (by decide)).1,
   (threshold_second_correct_completes.1 .none 1 3 "ااا" (by decide)).2,
   (threshold_second_correct_completes.2 .none 1 0 "الجذر يمتص الماء" (by decide)).2⟩

end Paixi

namespace Paixi

/-- Claim C2: for the threshold-based lessons, every answer not classified
correct increments the wrong counter, and when the updated counter reaches
10 the turn returns `isComplete = true` tagged `frustration`; hence a lesson
started fresh (the `start_lesson` state `correct = 0, wrong = 0`) and given
10 consecutive non-matching answers always ends `isComplete = true` tagged
`frustration`.  The classifiers here are binary, so a near-miss 10th answer
is covered by the not-classified-correct hypothesis. -/
theorem threshold_ten_wrong_exits :
    (∀ (p : PyVal) (n c w : Int) (utt : String),
      ¬(norm_arabic utt = norm_arabic (pronLessonGet n).target) →
      pronHandleTurn p (.vint n) utt (.vdict [("correct", .vint c), ("wrong", .vint w)]) =
        (if 10 ≤ w + 1 then
          .ok ⟨clean_arabic_plain "حسنا ننتقل للدرس التالي",
            [("correct", .vint c), ("wrong", .vint (w + 1))], true, "frustration"⟩
        else
          .ok ⟨clean_arabic_plain "مو مثلها حاول مرة ثانية",
            [("correct", .vint c), ("wrong", .vint (w + 1))], false, "frustration"⟩)) ∧
    (∀ (p : PyVal) (n : Int) (utts : List String), utts.length = 10 →
      (∀ u ∈ utts, ¬(norm_arabic u = norm_arabic (pronLessonGet n).target)) →
      runTurns (fun u st => pronHandleTurn p (.vint n) u st)
          (.vdict [("correct", .vint 0), ("wrong", .vint 0)]) utts =
        .ok ⟨clean_arabic_plain "حسنا ننتقل للدرس التالي",
          [("correct", .vint 0), ("wrong", .vint 10)], true, "frustration"⟩) ∧
    (∀ (p : PyVal) (n c w : Int) (utt : String),
      ¬(worldMatch (worldLessonGet n) utt = true) →
      worldHandleTurn p (.vint n) utt (.vdict [("correct", .vint c), ("wrong", .vint w)]) =
        (if 10 ≤ w + 1 then
          .ok ⟨clean_arabic_plain "حسنا ننتقل للدرس التالي",
            [("correct", .vint c), ("wrong", .vint (w + 1))], true, "frustration"⟩
        else
          .ok ⟨clean_arabic_plain "مو هذا قصدي حاول مرة ثانية",
            [("correct", .vint c), ("wrong", .vint (w + 1))], false, "frustration"⟩)) ∧
    (∀ (p : PyVal) (n : Int) (utts : List String), utts.length = 10 →
      (∀ u ∈ utts, ¬(worldMatch (worldLessonGet n) u = true)) →
      runTurns (fun u st => worldHandleTurn p (.vint n) u st)
          (.vdict [("correct", .vint 0), ("wrong", .vint 0)]) utts =
        .ok ⟨clean_arabic_plain "حسنا ننتقل للدرس التالي",
          [("correct", .vint 0), ("wrong", .vint 10)], true, "frustration"⟩) := by
  refine ⟨?_, ?_, ?_, ?_⟩
  · intro p n c w utt h
    rw [pronHandleTurn_vint, if_neg h]
  · intro p n utts hlen hall
    have hne : utts ≠ [] := by
      intro he
      rw [he] at hlen
      simp at hlen
    rw [runTurns_pron_wrong p n utts 0 0 hne hall, hlen]
    norm_num
  · intro p n c w utt h
    rw [worldHandleTurn_vint, if_neg h]
  · intro p n utts hlen hall
    have hne : utts ≠ [] := by
      intro he
      rw [he] at hlen
      simp at hlen
    rw [runTurns_world_wrong p n utts 0 0 hne hall, hlen]
    norm_num

/-- Witness for C2: ten copies of a non-matching answer against lesson 1 of
each threshold subject. -/
theorem threshold_ten_wrong_exits_check :
    runTurns (fun u st => pronHandleTurn .none (.vint 1) u st)
        (.vdict [("correct", .vint 0), ("wrong", .vint 0)]) (List.replicate 10 "خطا") =
      .ok ⟨clean_arabic_plain "حسنا ننتقل للدرس التالي",
        [("correct", .vint 0), ("wrong", .vint 10)], true, "frustration"⟩ ∧
    runTurns (fun u st => worldHandleTurn .none (.vint 1) u st)
        (.vdict [("correct", .vint 0), ("wrong", .vint 0)]) (List.replicate 10 "لا") =
      .ok ⟨clean_arabic_plain "حسنا ننتقل للدرس التالي",
        [("correct", .vint 0), ("wrong", .vint 10)], true, "frustration"⟩ ∧
    pronHandleTurn .none (.vint 1) "خطا"
        (.vdict [("correct", .vint 0), ("wrong", .vint 9)]) =
      .ok ⟨clean_arabic_plain "حسنا ننتقل للدرس التالي",
        [("correct", .vint 0), ("wrong", .vint 10)], true, "frustration"⟩ :=
  ⟨threshold_ten_wrong_exits.2.1 .none 1 (List.replicate 10 "خطا") (by decide) (by decide),
   threshold_ten_wrong_exits.2.2.2 .none 1 (List.replicate 10 "لا") (by decide) (by decide),
   by
    rw [threshold_ten_wrong_exits.1 .none 1 0 9 "خطا" (by decide)]
    norm_num⟩

end Paixi

namespace Paixi

theorem pronHandleTurn_none_state (p : PyVal) (n : Int) (utt : String) :
    pronHandleTurn p (.vint n) utt PyVal.none =
      pronHandleTurn p (.vint n) utt
        (.vdict [("correct", .vint 0), ("wrong", .vint 0)]) := by
  by_cases hB : norm_arabic utt = norm_arabic (pronLessonGet n).target <;>
    simp [pronHandleTurn, pyInt, pyDict, pyTruthy, bind, Except.bind, coerceCounter,
      dGet, dSet, hB]

theorem worldHandleTurn_none_state (p : PyVal) (n : Int) (utt : String) :
    worldHandleTurn p (.vint n) utt PyVal.none =
      worldHandleTurn p (.vint n) utt
        (.vdict [("correct", .vint 0), ("wrong", .vint 0)]) := by
  by_cases hB : worldMatch (worldLessonGet n) utt = true <;>
    simp [worldHandleTurn, pyInt, pyDict, pyTruthy, bind, Except.bind, coerceCounter,
      dGet, dSet, hB]

/-- Counterexample to claim C7 as stated: a truthy non-mapping lesson state
(the integer `7`) makes `handle_turn` raise `TypeError` instead of degrading
to an empty state, and a non-numeric string lesson number raises
`ValueError` instead of being coerced to 1. -/
theorem malformed_state_raises :
    pronHandleTurn .none (.vint 1) "ااا" (.vint 7) = .error "TypeError" ∧
    worldHandleTurn .none (.vint 1) "جذر" (.vint 7) = .error "TypeError" ∧
    pronHandleTurn .none (.vstr "ثلاثة") "ااا" PyVal.none = .error "ValueError" ∧
    worldHandleTurn .none (.vstr "lesson one") "جذر" PyVal.none = .error "ValueError" := by
  refine ⟨rfl, rfl, rfl, rfl⟩

/-- Claim C7 (amended): the threshold turn functions tolerate the falsy
malformed shapes — `None`/empty lesson state is treated as an empty dict
with counters 0, and an integer lesson number with no catalog entry falls
back to the first lesson — and such turns never raise; but truthy
non-mapping states or non-numeric lesson numbers do raise (see
`malformed_state_raises`). -/
theorem threshold_malformed_state_defaults :
    (∀ (p : PyVal) (n : Int) (utt : String),
      ∃ r, pronHandleTurn p (.vint n) utt PyVal.none = .ok r) ∧
    (∀ (p : PyVal) (n : Int) (utt : String) (st : PyVal),
      pronLessonFind n = Option.none →
      pronHandleTurn p (.vint n) utt st = pronHandleTurn p (.vint 1) utt st) ∧
    (∀ (p : PyVal) (n : Int) (utt : String),
      ∃ r, worldHandleTurn p (.vint n) utt PyVal.none = .ok r) ∧
    (∀ (p : PyVal) (n : Int) (utt : String) (st : PyVal),
      worldLessonFind n = Option.none →
      worldHandleTurn p (.vint n) utt st = worldHandleTurn p (.vint 1) utt st) := by
  refine ⟨?_, ?_, ?_, ?_⟩
  · intro p n utt
    rw [pronHandleTurn_none_state, pronHandleTurn_vint]
    by_cases hB : norm_arabic utt = norm_arabic (pronLessonGet n).target
    · rw [if_pos hB]
      by_cases hC : (2 : Int) ≤ 0 + 1
      · exact ⟨_, if_pos hC⟩
      · exact ⟨_, if_neg hC⟩
    · rw [if_neg hB]
      by_cases hC : (10 : Int) ≤ 0 + 1
      · exact ⟨_, if_pos hC⟩
      · exact ⟨_, if_neg hC⟩
  · intro p n utt st h
    have hget : pronLessonGet n = pronLessonGet 1 := by
      unfold pronLessonGet
      rw [h]
      rfl
    simp only [pronHandleTurn, pyInt, bind, Except.bind, hget]
  · intro p n utt
    rw [worldHandleTurn_none_state, worldHandleTurn_vint]
    by_cases hB : worldMatch (worldLessonGet n) utt = true
    · rw [if_pos hB]
      by_cases hC : (2 : Int) ≤ 0 + 1
      · exact ⟨_, if_pos hC⟩
      · exact ⟨_, if_neg hC⟩
    · rw [if_neg hB]
      by_cases hC : (10 : Int) ≤ 0 + 1
      · exact ⟨_, if_pos hC⟩
      · exact ⟨_, if_neg hC⟩
  · intro p n utt st h
    have hget : worldLessonGet n = worldLessonGet 1 := by
      unfold worldLessonGet
      rw [h]
      rfl
    simp only [worldHandleTurn, pyInt, bind, Except.bind, hget]

/-- Witness for the amended C7: lesson number 99 has no catalog entry and
falls back to lesson 1; a `None` state runs without error. -/
theorem threshold_malformed_state_defaults_check :
    pronLessonFind 99 = Option.none ∧
    pronHandleTurn .none (.vint 99) "ااا" PyVal.none =
      pronHandleTurn .none (.vint 1) "ااا" PyVal.none ∧
    (∃ r, worldHandleTurn .none (.vint 42) "جذر" PyVal.none = .ok r) :=
  ⟨rfl,
   threshold_malformed_state_defaults.2.1 .none 99 "ااا" PyVal.none rfl,
   threshold_malformed_state_defaults.2.2.1 .none 42 "جذر"⟩

end Paixi

namespace Paixi

theorem Store_read_write_ne {σ : Store} {b : Nat} {d : List (String × PyVal)} {a : Nat}
    (h : a ≠ b) : (σ.write b d).read a = σ.read a := by
  simp only [Store.read, Store.write, List.find?]
  have : (b == a) = false := by
    simp [Ne.symm h]
  simp [this]

theorem Store_read_alloc_lt {σ : Store} {d : List (String × PyVal)} {a : Nat}
    (h : a < σ.next) : ((σ.alloc d).snd).read a = σ.read a := by
  simp only [Store.read, Store.alloc, List.find?]
  have : (σ.next == a) = false := by
    simp [Nat.ne_of_gt h]
  simp [this]

/-- Claim C10: the caller's state dict is never mutated by `handle_turn`:
all counter updates go to the freshly allocated copy, whose address is
returned, and the caller's address reads back unchanged on every successful
turn — completing, failing and intermediate ones alike. -/
theorem handle_turn_frame :
    (∀ (ln : PyVal) (utt : String) (a : Nat) (σ : Store) (res : TurnResult)
        (a2 : Nat) (σ2 : Store),
      a < σ.next →
      pronHandleTurnHeap ln utt (Option.some a) σ = .ok (res, a2, σ2) →
      σ2.read a = σ.read a ∧ a2 ≠ a) ∧
    (∀ (ln : PyVal) (utt : String) (a : Nat) (σ : Store) (res : TurnResult)
        (a2 : Nat) (σ2 : Store),
      a < σ.next →
      worldHandleTurnHeap ln utt (Option.some a) σ = .ok (res, a2, σ2) →
      σ2.read a = σ.read a ∧ a2 ≠ a) := by
  constructor
  · intro ln utt a σ res a2 σ2 hlt hok
    cases hn : pyInt ln with
    | error e =>
      rw [pronHandleTurnHeap, hn] at hok
      simp [bind, Except.bind] at hok
    | ok n =>
      cases hread : σ.read a with
      | none =>
        rw [pronHandleTurnHeap, hn] at hok
        simp [bind, Except.bind, hread] at hok
      | some d =>
        rw [pronHandleTurnHeap, hn] at hok
        simp only [bind, Except.bind, hread] at hok
        set d0 := if d.isEmpty then ([] : List (String × PyVal)) else d with hd0
        cases hc : coerceCounter d0 "correct" with
        | error e => simp [hc] at hok
        | ok cc =>
          cases hw : coerceCounter (dSet d0 "correct" (.vint cc)) "wrong" with
          | error e => simp [hc, hw] at hok
          | ok ww =>
            simp only [hc, hw] at hok
            have hfresh : a ≠ σ.next := Nat.ne_of_lt hlt
            have ha1 : (σ.alloc d0).fst = σ.next := rfl
            rw [ha1] at hok
            have hbase : ((((σ.alloc d0).snd).write σ.next
                (dSet d0 "correct" (.vint cc))).write σ.next
                (dSet (dSet d0 "correct" (.vint cc)) "wrong" (.vint ww))).read a =
                Option.some d := by
              rw [Store_read_write_ne hfresh, Store_read_write_ne hfresh,
                Store_read_alloc_lt hlt]
              exact hread
            split at hok <;> split at hok <;>
              (simp only [pure, Except.pure, Except.ok.injEq, Prod.mk.injEq] at hok
               obtain ⟨-, ha2, hσ2⟩ := hok
               subst ha2
               subst hσ2
               exact ⟨by rw [Store_read_write_ne hfresh]; exact hbase, hfresh.symm⟩)
  · intro ln utt a σ res a2 σ2 hlt hok
    cases hn : pyInt ln with
    | error e =>
      rw [worldHandleTurnHeap, hn] at hok
      simp [bind, Except.bind] at hok
    | ok n =>
      cases hread : σ.read a with
      | none =>
        rw [worldHandleTurnHeap, hn] at hok
        simp [bind, Except.bind, hread] at hok
      | some d =>
        rw [worldHandleTurnHeap, hn] at hok
        simp only [bind, Except.bind, hread] at hok
        set d0 := if d.isEmpty then ([] : List (String × PyVal)) else d with hd0
        cases hc : coerceCounter d0 "correct" with
        | error e => simp [hc] at hok
        | ok cc =>
          cases hw : coerceCounter (dSet d0 "correct" (.vint cc)) "wrong" with
          | error e => simp [hc, hw] at hok
          | ok ww =>
            simp only [hc, hw] at hok
            have hfresh : a ≠ σ.next := Nat.ne_of_lt hlt
            have ha1 : (σ.alloc d0).fst = σ.next := rfl
            rw [ha1] at hok
            have hbase : ((((σ.alloc d0).snd).write σ.next
                (dSet d0 "correct" (.vint cc))).write σ.next
                (dSet (dSet d0 "correct" (.vint cc)) "wrong" (.vint ww))).read a =
                Option.some d := by
              rw [Store_read_write_ne hfresh, Store_read_write_ne hfresh,
                Store_read_alloc_lt hlt]
              exact hread
            split at hok <;> split at hok <;>
              (simp only [pure, Except.pure, Except.ok.injEq, Prod.mk.injEq] at hok
               obtain ⟨-, ha2, hσ2⟩ := hok
               subst ha2
               subst hσ2
               exact ⟨by rw [Store_read_write_ne hfresh]; exact hbase, hfresh.symm⟩)

end Paixi

namespace Paixi

/-- Witness for C10: a one-object store; after a completing pronunciation
turn the caller's dict at address 0 reads back unchanged and the returned
state address is the fresh address 1. -/
theorem handle_turn_frame_check :
    (Store.mk 2 [(1, [("correct", PyVal.vint 6), ("wrong", PyVal.vint 0)]),
        (1, [("correct", PyVal.vint 5), ("wrong", PyVal.vint 0)]),
        (1, [("correct", PyVal.vint 5)]),
        (1, [("correct", PyVal.vint 5)]),
        (0, [("correct", PyVal.vint 5)])]).read 0 =
      (Store.mk 1 [(0, [("correct", PyVal.vint 5)])]).read 0 ∧ (1 : Nat) ≠ 0 :=
  handle_turn_frame.1 (.vint 1) "ااا" 0 ⟨1, [(0, [("correct", .vint 5)])]⟩
    ⟨clean_arabic_plain "احسنت خلصنا الدرس",
      [("correct", .vint 6), ("wrong", .vint 0)], true, "celebrate"⟩
    1
    ⟨2, [(1, [("correct", .vint 6), ("wrong", .vint 0)]),
        (1, [("correct", .vint 5), ("wrong", .vint 0)]),
        (1, [("correct", .vint 5)]),
        (1, [("correct", .vint 5)]),
        (0, [("correct", .vint 5)])]⟩
    (by decide) rfl

end Paixi

namespace Paixi

/-- Claim C3: for the topic Q&A agents, in any stage of an active session an
utterance whose normalization contains a stop-trigger phrase deactivates the
session and returns the back-to-chat reply.  The statement quantifies over
arbitrary states — any `topic_i` and any `stage`, even out-of-range or
unknown ones — so the stop check is established to run before any stage
logic or topic lookup. -/
theorem stop_phrase_precedence :
    (∀ (st : QaState) (utt kid : String),
      st.active = true →
      animalSTOP.any (fun k => strContains (qaNorm utt) (qaNorm k)) = true →
      animalHandle st utt kid =
        .ok (Option.some (qaFmt ("تمام " ++ (if kid = "" then st.kid_name else kid) ++
            " رجعنا للدردشة") "normal" 0),
          { st with
            active := false
            kid_name := (if kid = "" then st.kid_name else kid) })) ∧
    (∀ (st : QaState) (utt kid : String),
      st.active = true →
      plantSTOP.any (fun k => strContains (qaNorm utt) (qaNorm k)) = true →
      plantHandle st utt kid =
        .ok (Option.some (qaFmt ("تمام " ++ (if kid = "" then st.kid_name else kid) ++
            " رجعنا للدردشة") "normal" 0),
          { st with
            active := false
            kid_name := (if kid = "" then st.kid_name else kid) })) := by
  constructor
  · intro st utt kid hactive hstop
    simp [animalHandle, qaHandle, hactive, hstop, bind, Except.bind, pure, Except.pure]
  · intro st utt kid hactive hstop
    simp [plantHandle, qaHandle, hactive, hstop, bind, Except.bind, pure, Except.pure]

/-- Witness for C3: a stop word ends the session even from an out-of-range
topic index and an unknown stage, and even when the utterance also contains
a correct answer keyword. -/
theorem stop_phrase_precedence_check :
    animalHandle ⟨true, 5, "no such stage", "صديقي"⟩ "خياشيم بس خلاص" "صديقي" =
      .ok (Option.some (qaFmt ("تمام " ++ "صديقي" ++ " رجعنا للدردشة") "normal" 0),
        ⟨false, 5, "no such stage", "صديقي"⟩) ∧
    plantHandle ⟨true, 0, "want_more", "صديقي"⟩ "توقف" "صديقي" =
      .ok (Option.some (qaFmt ("تمام " ++ "صديقي" ++ " رجعنا للدردشة") "normal" 0),
        ⟨false, 0, "want_more", "صديقي"⟩) :=
  ⟨stop_phrase_precedence.1 ⟨true, 5, "no such stage", "صديقي"⟩ "خياشيم بس خلاص" "صديقي"
      rfl (by decide),
   stop_phrase_precedence.2 ⟨true, 0, "want_more", "صديقي"⟩ "توقف" "صديقي"
      rfl (by decide)⟩

end Paixi

namespace Paixi

/-- Claim C4: the letter classifier's rules are evaluated in fixed priority
order with `wrong` as final fallback; consequently an answer equal to the
target's own normalized text always classifies `correct` (first rule), an
accepted variant classifies `correct` even when it is also listed among the
close variants (rule 2 precedes rule 3), and the verdict is always one of
the three labels. -/
theorem judge_letter_priority :
    (∀ c : Char, judgeLetter (normAr (String.mk [c])) c = "correct") ∧
    (∀ (c : Char) (ans : String) (r : LetterRule),
      letterRuleFind (if c = 'أ' ∨ c = 'إ' ∨ c = 'آ' then 'ا' else c) = Option.some r →
      (r.accepted.map normAr).contains ans = true →
      judgeLetter ans c = "correct") ∧
    (∀ (c : Char) (ans : String),
      judgeLetter ans c = "correct" ∨ judgeLetter ans c = "close" ∨
      judgeLetter ans c = "wrong") := by
  refine ⟨?_, ?_, ?_⟩
  · intro c
    unfold judgeLetter
    cases hfind : letterRuleFind (if c = 'أ' ∨ c = 'إ' ∨ c = 'آ' then 'ا' else c) with
    | none => simp [hfind]
    | some r => simp [hfind]
  · intro c ans r hfind hacc
    simp only [judgeLetter, hfind]
    by_cases h1 : ans = normAr (String.mk [c])
    · simp [h1]
    · rw [if_neg h1, if_pos hacc]
  · intro c ans
    cases hfind : letterRuleFind (if c = 'أ' ∨ c = 'إ' ∨ c = 'آ' then 'ا' else c) with
    | none =>
      simp only [judgeLetter, hfind]
      split_ifs <;> simp
    | some r =>
      simp only [judgeLetter, hfind]
      split_ifs <;> simp

/-- Witness for C4: the letter `ب` — its normalized answer `با` is in both
the accepted list and the close list, and classifies `correct`. -/
theorem judge_letter_priority_check :
    judgeLetter (normAr "با") 'ب' = "correct" ∧
    judgeLetter (normAr "ب") 'ب' = "correct" ∧
    (["با", "بي"].map normAr).contains (normAr "با") = true :=
  ⟨judge_letter_priority.2.1 'ب' (normAr "با") ⟨'ب', "باء", ["باء", "با", "ب"], ["با", "بي"]⟩
      (by decide) (by decide),
   judge_letter_priority.1 'ب',
   by decide⟩

end Paixi

namespace Paixi

/-- Claim C5 demonstration: at the whole-word stage for `أرنب`, the exact
word completes the lesson tagged `happy`; but the close/wrong split is
decided by the count of distinct characters alone — the utterance `سعد`
shares no character with the target yet receives the close re-prompt, not
the wrong re-prompt, because it has 3 distinct characters and
`max(1, 4 - 1) = 3`. -/
theorem word_stage_distinct_count_demo :
    arHandle ⟨true, "أرنب", ['أ', 'ر', 'ن', 'ب'], 4, "word", "صديقي"⟩ "أرنب" =
      .ok (Option.some (arFormat "انت رائع احسنت حقا وهنا تنتهي حصتنا لليوم" "happy" [0]),
        ⟨false, "أرنب", ['أ', 'ر', 'ن', 'ب'], 4, "word", "صديقي"⟩) ∧
    arHandle ⟨true, "أرنب", ['أ', 'ر', 'ن', 'ب'], 4, "word", "صديقي"⟩ "سعد" =
      .ok (Option.some (arFormat ("انت قريب من الاجابة. قل بعدي " ++ "أرنب" ++ ".")
          "frustration" [0]),
        ⟨true, "أرنب", ['أ', 'ر', 'ن', 'ب'], 4, "word", "صديقي"⟩) ∧
    (∀ ch ∈ (normAr "سعد").data, ch ∉ (normAr "أرنب").data) ∧
    arHandle ⟨true, "أرنب", ['أ', 'ر', 'ن', 'ب'], 4, "word", "صديقي"⟩ "ارن" =
      .ok (Option.some (arFormat ("انت قريب من الاجابة. قل بعدي " ++ "أرنب" ++ ".")
          "frustration" [0]),
        ⟨true, "أرنب", ['أ', 'ر', 'ن', 'ب'], 4, "word", "صديقي"⟩) :=
  ⟨rfl, rfl, by decide, rfl⟩

/-- Claim C6: on lesson completion the modelled router moves to the next
subject of the fixed cyclic ordering, increments the lesson number exactly
when the last subject completes, resets the lesson state, sets
`phase = "chat"`, gates routing with `await_new_session = true`, and tags
the closing remark `Teacher`; iterating the completion step once per
subject (one full round) returns to the same subject with the lesson number
advanced by exactly 1. -/
theorem cyclic_advancement (s : Subject) (n : Nat) (ph : String)
    (ls : List (String × PyVal)) (aw : Bool) :
    (onLessonComplete ⟨s, n, ph, ls, aw⟩).fst.phase = "chat" ∧
    (onLessonComplete ⟨s, n, ph, ls, aw⟩).fst.await_new_session = true ∧
    (onLessonComplete ⟨s, n, ph, ls, aw⟩).fst.lesson_state = [] ∧
    (onLessonComplete ⟨s, n, ph, ls, aw⟩).snd = "Teacher" ∧
    (onLessonComplete ⟨s, n, ph, ls, aw⟩).fst.lesson =
      (if s = Subject.stories then n + 1 else n) ∧
    subjIdx (onLessonComplete ⟨s, n, ph, ls, aw⟩).fst.subject =
      (subjIdx s + 1) % SUBJECTS.length ∧
    (completeStep (completeStep (completeStep ⟨s, n, ph, ls, aw⟩))).subject = s ∧
    (completeStep (completeStep (completeStep ⟨s, n, ph, ls, aw⟩))).lesson = n + 1 := by
  cases s <;>
    simp [onLessonComplete, completeStep, SUBJECTS, subjIdx]

end Paixi

namespace Paixi

theorem arHandle_inactive {st : ArState} {u : String} (hact : st.active = false) :
    arHandle st u = .ok (Option.none, st) := by
  simp [arHandle, hact, pure, Except.pure]

theorem arHandle_empty {st : ArState} {u : String} (hact : st.active = true)
    (hne : normAr u = "") :
    arHandle st u = (arRepeatPrompt st).bind (fun m => .ok (Option.some m, st)) := by
  simp only [arHandle, hact, hne]
  cases harp : arRepeatPrompt st <;>
    simp [harp, bind, Except.bind, Except.map, pure, Except.pure]

theorem arHandle_letters_stage {st : ArState} {u : String} (hact : st.active = true)
    (hstage : st.stage = "letters") (hne : ¬(normAr u = "")) :
    arHandle st u = arHandleLetterStep st (normAr u) := by
  simp [arHandle, hact, hstage, hne]

theorem arHandle_word_stage {st : ArState} {u : String} (hact : st.active = true)
    (hstage : st.stage = "word") (hne : ¬(normAr u = "")) :
    arHandle st u = .ok (arHandleWordStep st (normAr u)) := by
  have hsl : ¬(st.stage = "letters") := by
    rw [hstage]
    decide
  simp [arHandle, hact, hsl, hstage, hne, pure, Except.pure, bind, Except.bind]

theorem arHandle_unknown_stage {st : ArState} {u : String} (hact : st.active = true)
    (h1 : ¬(st.stage = "letters")) (h2 : ¬(st.stage = "word")) (hne : ¬(normAr u = "")) :
    arHandle st u = .ok (Option.none, { st with active := false }) := by
  simp [arHandle, hact, h1, h2, hne, pure, Except.pure, bind, Except.bind]

theorem arHandleWordStep_state (st : ArState) (ans : String) :
    (arHandleWordStep st ans).snd = st ∨
      (arHandleWordStep st ans).snd = { st with active := false } := by
  simp only [arHandleWordStep]
  split_ifs <;> simp

theorem arHandleLetterStep_cases {st : ArState} {ans : String} {r : Option String}
    {st' : ArState} (hlt : st.i < st.letters.length)
    (h : arHandleLetterStep st ans = .ok (r, st')) :
    ∃ letter, st.letters[st.i]? = Option.some letter ∧
      ((judgeLetter ans letter = "correct" ∧ st.i + 1 < st.letters.length ∧
          st' = { st with i := st.i + 1 }) ∨
       (judgeLetter ans letter = "correct" ∧ st.i + 1 = st.letters.length ∧
          st' = { st with i := st.i + 1, stage := "word" }) ∨
       (¬(judgeLetter ans letter = "correct") ∧ st' = st)) := by
  have hsome : st.letters[st.i]? = Option.some st.letters[st.i] :=
    List.getElem?_eq_getElem hlt
  refine ⟨st.letters[st.i], hsome, ?_⟩
  rw [arHandleLetterStep] at h
  rw [hsome] at h
  simp only [bind, Except.bind] at h
  by_cases hv : judgeLetter ans st.letters[st.i] = "correct"
  · rw [if_pos hv] at h
    by_cases hlt2 : st.i + 1 < st.letters.length
    · left
      refine ⟨hv, hlt2, ?_⟩
      have hsome2 : st.letters[st.i + 1]? = Option.some st.letters[st.i + 1] :=
        List.getElem?_eq_getElem hlt2
      rw [if_pos hlt2, hsome2] at h
      simp only [pure, Except.pure, Except.ok.injEq, Prod.mk.injEq] at h
      exact h.2.symm
    · right
      left
      have heq : st.i + 1 = st.letters.length := by omega
      refine ⟨hv, heq, ?_⟩
      rw [if_neg hlt2] at h
      simp only [pure, Except.pure, Except.ok.injEq, Prod.mk.injEq] at h
      exact h.2.symm
  · right
    right
    refine ⟨hv, ?_⟩
    rw [if_neg hv] at h
    by_cases hc : judgeLetter ans st.letters[st.i] = "close"
    · rw [if_pos hc] at h
      simp only [pure, Except.pure, Except.ok.injEq, Prod.mk.injEq] at h
      exact h.2.symm
    · rw [if_neg hc] at h
      simp only [pure, Except.pure, Except.ok.injEq, Prod.mk.injEq] at h
      exact h.2.symm

end Paixi

namespace Paixi

theorem arStart_inv (word kid : String) :
    (arStart word kid).snd.letters ≠ [] ∧
      ((arStart word kid).snd.stage = "letters" →
        (arStart word kid).snd.i < (arStart word kid).snd.letters.length) := by
  have hne : splitLetters word ≠ [] := by
    unfold splitLetters
    by_cases hf : (word.data.filter arBlock).isEmpty
    · simp [hf]
    · simp only [hf, if_neg]
      simp only [List.isEmpty_eq_true] at hf
      simpa using hf
  constructor
  · simpa [arStart] using hne
  · intro _
    have : 0 < (splitLetters word).length := List.length_pos.mpr hne
    simpa [arStart] using this

theorem arInv_preserved {st st' : ArState} {r : Option String} {u : String}
    (hInv : st.letters ≠ [] ∧ (st.stage = "letters" → st.i < st.letters.length))
    (h : arHandle st u = .ok (r, st')) :
    st'.letters ≠ [] ∧ (st'.stage = "letters" → st'.i < st'.letters.length) := by
  by_cases hact : st.active = true
  · by_cases hemp : normAr u = ""
    · rw [arHandle_empty hact hemp] at h
      cases harp : arRepeatPrompt st with
      | error e => rw [harp] at h; simp [Except.bind] at h
      | ok m =>
        rw [harp] at h
        simp only [Except.bind, Except.ok.injEq, Prod.mk.injEq] at h
        rw [← h.2]
        exact hInv
    · by_cases hstage : st.stage = "letters"
      · have hlt := hInv.2 hstage
        rw [arHandle_letters_stage hact hstage hemp] at h
        obtain ⟨letter, hsome, hcases⟩ := arHandleLetterStep_cases hlt h
        rcases hcases with ⟨hv, hlt2, hst⟩ | ⟨hv, heq, hst⟩ | ⟨hv, hst⟩
        · subst hst
          exact ⟨hInv.1, fun _ => hlt2⟩
        · subst hst
          exact ⟨hInv.1, fun hw => by simp at hw⟩
        · subst hst
          exact hInv
      · by_cases hword : st.stage = "word"
        · rw [arHandle_word_stage hact hword hemp] at h
          have hsnd : st' = (arHandleWordStep st (normAr u)).snd := by
            cases he : arHandleWordStep st (normAr u) with
            | mk a b =>
              simp only [Except.ok.injEq] at h
              have h2 := he.symm.trans h
              simp only [Prod.mk.injEq] at h2
              rw [← h2.2]
          rcases arHandleWordStep_state st (normAr u) with hs | hs <;> rw [hsnd, hs]
          · exact hInv
          · exact hInv
        · rw [arHandle_unknown_stage hact hstage hword hemp] at h
          simp only [Except.ok.injEq, Prod.mk.injEq] at h
          rw [← h.2]
          exact hInv
  · have hact2 : st.active = false := by
      simpa using hact
    rw [arHandle_inactive hact2] at h
    simp only [Except.ok.injEq, Prod.mk.injEq] at h
    rw [← h.2]
    exact hInv

theorem arReach_inv : ∀ st : ArState, ArReach st →
    st.letters ≠ [] ∧ (st.stage = "letters" → st.i < st.letters.length) := by
  intro st h
  induction h with
  | start word kid => exact arStart_inv word kid
  | step _ hh ih => exact arInv_preserved ih hh

end Paixi

namespace Paixi

theorem arStage_forward {st st' : ArState} {u : String} {r : Option String}
    (hact : st.active = true) (hstage : st.stage = "letters")
    (hlt : st.i < st.letters.length)
    (h : arHandle st u = .ok (r, st')) :
    (st'.stage = "word" ↔
      (¬(normAr u = "") ∧ st.i + 1 = st.letters.length ∧
        ∃ letter, st.letters[st.i]? = Option.some letter ∧
          judgeLetter (normAr u) letter = "correct")) := by
  by_cases hemp : normAr u = ""
  · rw [arHandle_empty hact hemp] at h
    cases harp : arRepeatPrompt st with
    | error e => rw [harp] at h; simp [Except.bind] at h
    | ok m =>
      rw [harp] at h
      simp only [Except.bind, Except.ok.injEq, Prod.mk.injEq] at h
      constructor
      · intro hw
        rw [← h.2, hstage] at hw
        exact absurd hw (by decide)
      · rintro ⟨hne, -, -⟩
        exact absurd hemp hne
  · rw [arHandle_letters_stage hact hstage hemp] at h
    obtain ⟨letter, hsome, hcases⟩ := arHandleLetterStep_cases hlt h
    rcases hcases with ⟨hv, hlt2, hst⟩ | ⟨hv, heq, hst⟩ | ⟨hv, hst⟩
    · subst hst
      constructor
      · intro hw
        simp only [] at hw
        rw [hstage] at hw
        exact absurd hw (by decide)
      · rintro ⟨-, heq, -⟩
        omega
    · subst hst
      constructor
      · intro _
        exact ⟨hemp, heq, letter, hsome, hv⟩
      · intro _
        rfl
    · subst hst
      constructor
      · intro hw
        rw [hstage] at hw
        exact absurd hw (by decide)
      · rintro ⟨-, -, letter2, hsome2, hv2⟩
        rw [hsome] at hsome2
        have hl : letter = letter2 := Option.some.inj hsome2
        rw [← hl] at hv2
        exact absurd hv2 hv

theorem arStage_word_stays {st st' : ArState} {u : String} {r : Option String}
    (hword : st.stage = "word") (h : arHandle st u = .ok (r, st')) :
    st'.stage = "word" := by
  by_cases hact : st.active = true
  · by_cases hemp : normAr u = ""
    · rw [arHandle_empty hact hemp] at h
      cases harp : arRepeatPrompt st with
      | error e => rw [harp] at h; simp [Except.bind] at h
      | ok m =>
        rw [harp] at h
        simp only [Except.bind, Except.ok.injEq, Prod.mk.injEq] at h
        rw [← h.2]
        exact hword
    · rw [arHandle_word_stage hact hword hemp] at h
      have hsnd : st' = (arHandleWordStep st (normAr u)).snd := by
        cases he : arHandleWordStep st (normAr u) with
        | mk a b =>
          simp only [Except.ok.injEq] at h
          have h2 := he.symm.trans h
          simp only [Prod.mk.injEq] at h2
          rw [← h2.2]
      rcases arHandleWordStep_state st (normAr u) with hs | hs <;> rw [hsnd, hs]
      · exact hword
      · exact hword
  · have hact2 : st.active = false := by simpa using hact
    rw [arHandle_inactive hact2] at h
    simp only [Except.ok.injEq, Prod.mk.injEq] at h
    rw [← h.2]
    exact hword

end Paixi

namespace Paixi

theorem qaHandle_topic {topics : List QaTopic} {stops hintExtra : List String}
    {endMsg : String → String} {sw : String} {st : QaState} {u k : String}
    {r : Option String} {st' : QaState}
    (hlt : st.topic_i < topics.length)
    (h : qaHandle topics stops hintExtra endMsg sw st u k = .ok (r, st')) :
    st'.topic_i < topics.length ∧
      (st'.topic_i = st.topic_i ∨ st'.topic_i = (st.topic_i + 1) % topics.length) := by
  by_cases hact : st.active = true
  · by_cases hstop : stops.any (fun k2 => strContains (qaNorm u) (qaNorm k2)) = true
    · simp only [qaHandle, hact, hstop, bind, Except.bind, pure, Except.pure,
        Bool.not_true, if_true, if_false, Except.ok.injEq, Prod.mk.injEq] at h
      simp at h
      rw [← h.2]
      exact ⟨hlt, Or.inl rfl⟩
    · have hsome : topics[st.topic_i]? = Option.some topics[st.topic_i] :=
        List.getElem?_eq_getElem hlt
      by_cases hask : st.stage = "ask"
      · by_cases hc : (topics[st.topic_i].correct_any.any
            (fun kk => strContains (qaNorm u) kk)) = true
        · simp only [qaHandle, hact, hstop, hask, hsome, hc, bind, Except.bind, pure,
            Except.pure, Except.ok.injEq, Prod.mk.injEq] at h
          simp [hc] at h
          rw [← h.2]
          exact ⟨hlt, Or.inl rfl⟩
        · by_cases hp : (topics[st.topic_i].partial_any.any
              (fun kk => strContains (qaNorm u) kk)) = true
          · simp only [qaHandle, hact, hstop, hask, hsome, hc, hp, bind, Except.bind,
              pure, Except.pure, Except.ok.injEq, Prod.mk.injEq] at h
            simp [hc, hp] at h
            rw [← h.2]
            exact ⟨hlt, Or.inl rfl⟩
          · simp only [qaHandle, hact, hstop, hask, hsome, hc, hp, bind, Except.bind,
              pure, Except.pure, Except.ok.injEq, Prod.mk.injEq] at h
            simp [hc, hp] at h
            rw [← h.2]
            exact ⟨hlt, Or.inl rfl⟩
      · by_cases hhint : st.stage = "hint"
        · by_cases hc2 : ((topics[st.topic_i].correct_any.any
              (fun kk => strContains (qaNorm u) kk)) = true ∨
              (hintExtra.any (fun x => strContains (qaNorm u) x)) = true)
          · simp only [qaHandle, hact, hstop, hask, hhint, hsome, bind, Except.bind,
              pure, Except.pure] at h
            rw [if_pos hc2] at h
            injection h with hpair
            injection hpair with h1 h2
            rw [← h2]
            exact ⟨hlt, Or.inl rfl⟩
          · simp only [qaHandle, hact, hstop, hask, hhint, hsome, bind, Except.bind,
              pure, Except.pure] at h
            rw [if_neg hc2] at h
            injection h with hpair
            injection hpair with h1 h2
            rw [← h2]
            exact ⟨hlt, Or.inl rfl⟩
        · by_cases hwant : st.stage = "want_more"
          · by_cases hy : (qaYes.any (fun x => strContains (qaNorm u) x)) = true
            · have hpos : 0 < topics.length := Nat.lt_of_le_of_lt (Nat.zero_le _) hlt
              have hl2 : (st.topic_i + 1) % topics.length < topics.length :=
                Nat.mod_lt _ hpos
              have hsome2 : topics[(st.topic_i + 1) % topics.length]? =
                  Option.some topics[(st.topic_i + 1) % topics.length] :=
                List.getElem?_eq_getElem hl2
              simp only [qaHandle, hact, hstop, hask, hhint, hwant, hy, hsome, hsome2,
                bind, Except.bind, pure, Except.pure, Except.ok.injEq,
                Prod.mk.injEq] at h
              simp [hy] at h
              rw [← h.2]
              exact ⟨hl2, Or.inr rfl⟩
            · simp only [qaHandle, hact, hstop, hask, hhint, hwant, hy, hsome, bind,
                Except.bind, pure, Except.pure, Except.ok.injEq, Prod.mk.injEq] at h
              simp [hy, hsome] at h
              rw [← h.2]
              exact ⟨hlt, Or.inl rfl⟩
          · simp only [qaHandle, hact, hstop, hask, hhint, hwant, hsome, bind,
              Except.bind, pure, Except.pure, Except.ok.injEq, Prod.mk.injEq] at h
            simp [hsome] at h
            rw [← h.2]
            exact ⟨hlt, Or.inl rfl⟩
  · have hact2 : st.active = false := by simpa using hact
    simp only [qaHandle, hact2, bind, Except.bind, pure, Except.pure, Bool.not_false,
      if_true, Except.ok.injEq, Prod.mk.injEq] at h
    rw [← h.2]
    exact ⟨hlt, Or.inl rfl⟩

end Paixi

namespace Paixi

/-- Claim C9: reachable spelling-lesson states keep the letter cursor in
bounds while in the `letters` stage; the stage moves forward to `word`
exactly when the last letter is answered correctly and never moves back;
and the Q&A agents keep `topic_i` inside `[0, len TOPICS)` on every handled
turn, wrapping cyclically. -/
theorem cursor_topic_invariants :
    (∀ st : ArState, ArReach st →
      st.letters ≠ [] ∧ (st.stage = "letters" → st.i < st.letters.length)) ∧
    (∀ (st st' : ArState) (u : String) (r : Option String),
      ArReach st → st.active = true → st.stage = "letters" →
      arHandle st u = .ok (r, st') →
      (st'.stage = "word" ↔ (¬(normAr u = "") ∧ st.i + 1 = st.letters.length ∧
        ∃ letter, st.letters[st.i]? = Option.some letter ∧
          judgeLetter (normAr u) letter = "correct"))) ∧
    (∀ (st st' : ArState) (u : String) (r : Option String),
      st.stage = "word" → arHandle st u = .ok (r, st') → st'.stage = "word") ∧
    (∀ (st st' : QaState) (u k : String) (r : Option String),
      st.topic_i < animalTOPICS.length → animalHandle st u k = .ok (r, st') →
      st'.topic_i < animalTOPICS.length ∧
        (st'.topic_i = st.topic_i ∨
          st'.topic_i = (st.topic_i + 1) % animalTOPICS.length)) ∧
    (∀ (st st' : QaState) (u k : String) (r : Option String),
      st.topic_i < plantTOPICS.length → plantHandle st u k = .ok (r, st') →
      st'.topic_i < plantTOPICS.length ∧
        (st'.topic_i = st.topic_i ∨
          st'.topic_i = (st.topic_i + 1) % plantTOPICS.length)) := by
  refine ⟨arReach_inv, ?_, ?_, ?_, ?_⟩
  · intro st st' u r hreach hact hstage h
    exact arStage_forward hact hstage ((arReach_inv st hreach).2 hstage) h
  · intro st st' u r hword h
    exact arStage_word_stays hword h
  · intro st st' u k r hlt h
    exact qaHandle_topic hlt h
  · intro st st' u k r hlt h
    exact qaHandle_topic hlt h

/-- Witness for C9: a started spelling session on `أرنب` answering the first
letter correctly, and a wrapping `want_more` turn of the animal agent. -/
theorem cursor_topic_invariants_check :
    ((arStart "أرنب" "صديقي").snd.letters ≠ [] ∧
      ((arStart "أرنب" "صديقي").snd.stage = "letters" →
        (arStart "أرنب" "صديقي").snd.i < (arStart "أرنب" "صديقي").snd.letters.length)) ∧
    (({ (arStart "أرنب" "صديقي").snd with i := 1 } : ArState).stage = "word" ↔
      (¬(normAr "الف" = "") ∧
        (arStart "أرنب" "صديقي").snd.i + 1 = (arStart "أرنب" "صديقي").snd.letters.length ∧
        ∃ letter, (arStart "أرنب" "صديقي").snd.letters[(arStart "أرنب" "صديقي").snd.i]? =
            Option.some letter ∧ judgeLetter (normAr "الف") letter = "correct")) ∧
    ((⟨true, 0, "ask", "صديقي"⟩ : QaState).topic_i < animalTOPICS.length ∧
      ((⟨true, 0, "ask", "صديقي"⟩ : QaState).topic_i =
          (⟨true, 2, "want_more", "صديقي"⟩ : QaState).topic_i ∨
        (⟨true, 0, "ask", "صديقي"⟩ : QaState).topic_i =
          ((⟨true, 2, "want_more", "صديقي"⟩ : QaState).topic_i + 1) %
            animalTOPICS.length)) :=
  ⟨cursor_topic_invariants.1 (arStart "أرنب" "صديقي").snd
      (ArReach.start "أرنب" "صديقي"),
   cursor_topic_invariants.2.1 (arStart "أرنب" "صديقي").snd
      { (arStart "أرنب" "صديقي").snd with i := 1 } "الف"
      (Option.some (arFormat ("احسنت. " ++ "الحرف التالي هو " ++ String.mk ['ر'] ++
        ". " ++ "قل بعدي " ++ "راء" ++ ".") "celebrate" [1, 1, 2, 2, 0]))
      (ArReach.start "أرنب" "صديقي") rfl rfl (by rfl),
   cursor_topic_invariants.2.2.2.1 ⟨true, 2, "want_more", "صديقي"⟩
      ⟨true, 0, "ask", "صديقي"⟩ "نعم" "صديقي"
      (Option.some (qaFmt ("حلو " ++ "صديقي" ++ " السؤال الجديد " ++
        "هل تعلم لماذا السمك لا يعيش على اليابسه")))
      (by decide) (by rfl)⟩

end Paixi

namespace Paixi

/-- Claim C8: both Arabic text normalizers are idempotent —
`normalize(normalize(x)) = normalize(x)` for every input string — and they
are total functions of the input (the embeddings return a plain `String`,
with no error case), with the empty string normalizing to the empty
string. -/
theorem normalizers_idempotent_total :
    (∀ x : String, norm_arabic (norm_arabic x) = norm_arabic x) ∧
    (∀ x : String, normAr (normAr x) = normAr x) ∧
    norm_arabic "" = "" ∧ normAr "" = "" :=
  ⟨norm_arabic_idem, normAr_idem, rfl, rfl⟩

end Paixi
